import Mathlib

/-!
Verification development for the design-document reconciliation engine of
couchdb-python (`couchdb/design.py`).

The Python code is shallowly embedded: mutable dict updates become explicit
state passing, exceptions become `Except`, and Python strings are manipulated
through their character lists.  Python dict equality ignores insertion order,
so dicts are represented as association lists kept in key-sorted canonical
form: structural equality of two canonical maps coincides with Python dict
equality, and every map produced by the embedded operations from canonical
inputs is canonical again.
-/

set_option maxHeartbeats 1000000

namespace CouchDesign

/-! ### A computable lexicographic order on strings

Canonical maps and the stable sort need an order on strings; this one is
structural recursion on the character lists, so concrete instances reduce in
the kernel. -/

/-- Strict lexicographic order on character lists. -/
def lexLtB : List Char → List Char → Bool
  | [], [] => false
  | [], _ :: _ => true
  | _ :: _, [] => false
  | x :: xs, y :: ys => if x < y then true else if x = y then lexLtB xs ys else false

/-- Strict lexicographic order on strings. -/
def strLtB (a b : String) : Bool := lexLtB a.data b.data

/-- The matching total preorder on strings. -/
def strLeB (a b : String) : Bool := !strLtB b a

/-! ### String-keyed maps (Python dicts) -/

/-- A Python dict with string keys, in key-sorted canonical form. -/
abbrev Smap (α : Type) : Type := List (String × α)

/-- `d[k]` lookup (first matching key). -/
def Smap.lookup {α : Type} (k : String) : Smap α → Option α
  | [] => none
  | (k1, v) :: t => if k = k1 then some v else Smap.lookup k t

/-- `d[k] = v`: replace the value at `k`, or insert `k` at its sorted position. -/
def Smap.insert {α : Type} (k : String) (v : α) : Smap α → Smap α
  | [] => [(k, v)]
  | (k1, v1) :: t =>
    if strLtB k k1 then (k, v) :: (k1, v1) :: t
    else if k = k1 then (k, v) :: t
    else (k1, v1) :: Smap.insert k v t

/-- `del d[k]` (removes the first matching key; a no-op when absent). -/
def Smap.erase {α : Type} (k : String) : Smap α → Smap α
  | [] => []
  | (k1, v1) :: t => if k = k1 then t else (k1, v1) :: Smap.erase k t

/-- `list(d.keys())`. -/
def Smap.keys {α : Type} (m : Smap α) : List String :=
  m.map Prod.fst

/-- The canonical-form invariant: keys strictly increasing. -/
abbrev Smap.Canon {α : Type} (m : Smap α) : Prop :=
  List.Chain' (fun a b : String × α => strLtB a.1 b.1 = true) m

/-! ### Language sets (Python `set` of strings) -/

/-- A Python set of strings, as a sorted duplicate-free list. -/
abbrev Lset : Type := List String

/-- `s.add(x)`. -/
def Lset.insert (x : String) : Lset → Lset
  | [] => [x]
  | y :: t => if strLtB x y then x :: y :: t else if x = y then y :: t else y :: Lset.insert x t

/-! ### Source normalization (`textwrap.dedent` and `str.lstrip`)

String manipulation is embedded at the character-list level (`String.data`).
-/

/-- The characters the `textwrap` dedent margin logic treats as indentation. -/
def isIndentChar (c : Char) : Bool := c = ' ' || c = '\t'

/-- Split a character list on newline characters (like the line structure the
`re.MULTILINE` patterns of `textwrap.dedent` see). -/
def splitNL : List Char → List (List Char)
  | [] => [[]]
  | c :: cs =>
    if c = '\n' then [] :: splitNL cs
    else
      match splitNL cs with
      | [] => [[c]]
      | l :: ls => (c :: l) :: ls

/-- Re-join lines with newline characters. -/
def joinNL : List (List Char) → List Char
  | [] => []
  | [l] => l
  | l :: ls => l ++ '\n' :: joinNL ls

/-- The longest common prefix of two character lists. -/
def commonPrefix : List Char → List Char → List Char
  | x :: xs, y :: ys => if x = y then x :: commonPrefix xs ys else []
  | _, _ => []

/-- One iteration of the margin loop of `textwrap.dedent`: keep the margin if
the new indent extends it, shrink to the new indent if the margin extends it,
otherwise truncate the margin at the first mismatching character. -/
def marginStep (margin : Option (List Char)) (indent : List Char) : Option (List Char) :=
  match margin with
  | none => some indent
  | some m =>
    if m.isPrefixOf indent then some m
    else if indent.isPrefixOf m then some indent
    else some (commonPrefix m indent)

/-- `textwrap.dedent` on a character list: lines made up only of spaces and
tabs are emptied, the margin is accumulated over the indents of the remaining
non-empty lines, and a non-empty margin is stripped from every line that
starts with it. -/
def dedentL (text : List Char) : List Char :=
  let lines := (splitNL text).map (fun l => if !l.isEmpty && l.all isIndentChar then [] else l)
  let indents := (lines.filter (fun l => !l.isEmpty)).map (fun l => l.takeWhile isIndentChar)
  let margin := (indents.foldl marginStep none).getD []
  let stripped := lines.map (fun l => if !margin.isEmpty && margin.isPrefixOf l then l.drop margin.length else l)
  joinNL stripped

/-- `textwrap.dedent`. -/
def dedent (s : String) : String := String.mk (dedentL s.data)

/-- `s.lstrip('\n')`: removes leading newline characters only (not `'\r'`). -/
def lstripNewlines (s : String) : String := String.mk (s.data.dropWhile (fun c => c = '\n'))

/-- The normalization applied to every source-code argument at record
construction: `dedent(code.lstrip('\n'))`. -/
def normalizeSource (s : String) : String := dedent (lstripNewlines s)

/-- `DefinitionMixin.__init__`: a leading `"_design/"` prefix is stripped once. -/
def stripDesignPrefix (design : String) : String :=
  if "_design/".data.isPrefixOf design.data then String.mk (design.data.drop 8) else design

/-! ### Definition records -/

/-- `ViewDefinition` (fields after `__init__` ran). -/
structure ViewDefinition where
  design : String
  name : String
  map_fun : String
  reduce_fun : Option String
  language : String
  options : Option (Smap String)
deriving DecidableEq, Repr

/-- `ViewDefinition.__init__` on literal source strings. -/
def ViewDefinition.make (design name map_fun : String) (reduce_fun : Option String)
    (language : String) (options : Option (Smap String)) : ViewDefinition :=
  { design := stripDesignPrefix design
    name := name
    map_fun := normalizeSource map_fun
    reduce_fun :=
      match reduce_fun with
      | none => none
      | some r => if !r.isEmpty then some (normalizeSource r) else some r
    language := language
    options := options }

/-- `UpdateHandlerDefinition` (fields after `__init__` ran). -/
structure UpdateHandlerDefinition where
  design : String
  name : String
  func : String
  language : String
deriving DecidableEq, Repr

/-- `UpdateHandlerDefinition.__init__` on a literal source string. -/
def UpdateHandlerDefinition.make (design name func language : String) :
    UpdateHandlerDefinition :=
  { design := stripDesignPrefix design
    name := name
    func := normalizeSource func
    language := language }

/-- Modelled from the spec: the `ValidateFunctionDefinition` class is used by
the repository's tests but its code is not under `src/`.  Per the spec a
validator record carries no artifact name (`validate_doc_update` is a single
code string with no per-name slot), only the owning document, the code and the
language; construction normalizes the source like the other kinds. -/
structure ValidateFunctionDefinition where
  design : String
  func : String
  language : String
deriving DecidableEq, Repr

/-- Modelled from the spec: `ValidateFunctionDefinition` construction. -/
def ValidateFunctionDefinition.make (design func language : String) :
    ValidateFunctionDefinition :=
  { design := stripDesignPrefix design
    func := normalizeSource func
    language := language }

/-- Modelled from the spec: the `ShowFunctionDefinition` class is used by the
repository's tests but its code is not under `src/`.  Per the spec `shows` is
a mapping from artifact name to code string, so a show-function record carries
document, name, code and language. -/
structure ShowFunctionDefinition where
  design : String
  name : String
  func : String
  language : String
deriving DecidableEq, Repr

/-- Modelled from the spec: `ShowFunctionDefinition` construction. -/
def ShowFunctionDefinition.make (design name func language : String) :
    ShowFunctionDefinition :=
  { design := stripDesignPrefix design
    name := name
    func := normalizeSource func
    language := language }

/-- A heterogeneous definition record as supplied to `sync_definitions`.
`other` stands for an object whose class is none of the recognized definition
classes (for instance a bare `DefinitionMixin`, as in the repository's own
`test_sync_unknown_definition_type`). -/
inductive Defn : Type
  | view : ViewDefinition → Defn
  | update_handler : UpdateHandlerDefinition → Defn
  | validate_function : ValidateFunctionDefinition → Defn
  | show_function : ShowFunctionDefinition → Defn
  | other : String → Defn
deriving DecidableEq, Repr

/-- `attrgetter('design')`. -/
def Defn.design : Defn → String
  | Defn.view v => v.design
  | Defn.update_handler u => u.design
  | Defn.validate_function f => f.design
  | Defn.show_function f => f.design
  | Defn.other d => d

/-- Whether a record's kind belongs to the recognized closed set. -/
def Defn.recognized : Defn → Bool
  | Defn.other _ => false
  | _ => true

/-! ### Design documents -/

/-- The wire value stored for one view inside the `views` mapping, as built by
`get_definition` inside `ViewDefinition._sync_doc`: `map`, plus `reduce` and
`options` only when truthy. -/
structure ViewSpec where
  map : String
  reduce : Option String
  options : Option (Smap String)
deriving DecidableEq, Repr

/-- `get_definition` (Python truthiness: an empty string or empty dict is
falsy, so it is omitted from the wire value). -/
def ViewDefinition.get_definition (v : ViewDefinition) : ViewSpec :=
  { map := v.map_fun
    reduce :=
      match v.reduce_fun with
      | none => none
      | some r => if !r.isEmpty then some r else none
    options :=
      match v.options with
      | none => none
      | some o => if !o.isEmpty then some o else none }

/-- A design document, with the fixed field keys the engine touches.  `none`
means the field key is absent from the document. -/
structure Doc where
  docId : String
  rev : Option String
  views : Option (Smap ViewSpec)
  updates : Option (Smap String)
  shows : Option (Smap String)
  validate_doc_update : Option String
  language : Option String
deriving DecidableEq, Repr

/-- The default document `db.get(doc_id, dict(_id=doc_id))` falls back to. -/
def emptyDesignDoc (docId : String) : Doc :=
  { docId := docId, rev := none, views := none, updates := none, shows := none
    validate_doc_update := none, language := none }

/-- Errors raised by the engine.  `unsupportedKind` is the `TypeError` of
`from_definitions`, `languageConflict` the `ValueError` of `_sync_doc`
(carrying `list(languages)`), `validatorConflict` the error for more than one
validator per document, and `indexError` the `list(languages)[0]` access on an
empty set. -/
inductive Err : Type
  | languageConflict : List String → Err
  | unsupportedKind : Err
  | validatorConflict : Err
  | indexError : Err
deriving DecidableEq, Repr

/-! ### `_sync_dict_field` -/

/-- The `for definition in definitions` loop of `_sync_dict_field`: write the
record's wire value under its artifact name (creating the field dict on first
use, like `setdefault`), record the language, and drop the artifact name from
`missing`. -/
def sdfLoop {δ α : Type} (getName : δ → String) (getDef : δ → α) (getLang : δ → String) :
    List δ → Option (Smap α) → Lset → List String → Option (Smap α) × Lset × List String
  | [], fld, langs, missing => (fld, langs, missing)
  | d :: ds, fld, langs, missing =>
    sdfLoop getName getDef getLang ds
      (some (Smap.insert (getName d) (getDef d) (fld.getD [])))
      (Lset.insert (getLang d) langs)
      (missing.erase (getName d))

/-- `_sync_dict_field`.  The field content (`doc[field]`), the language set
and the document's top-level language are threaded explicitly; the returned
pair is the new field content and the new language set. -/
def _sync_dict_field {δ α : Type} (getName : δ → String) (getDef : δ → α) (getLang : δ → String)
    (fld : Option (Smap α)) (definitions : List δ) (remove_missing : Bool)
    (langs : Lset) (docLanguage : Option String) : Option (Smap α) × Lset :=
  let missing0 := Smap.keys (fld.getD [])
  let r := sdfLoop getName getDef getLang definitions fld langs missing0
  if remove_missing && !r.2.2.isEmpty then
    (some (r.2.2.foldl (fun m n => Smap.erase n m) (r.1.getD [])), r.2.1)
  else
    match docLanguage with
    | some L => if !r.2.2.isEmpty then (r.1, Lset.insert L r.2.1) else (r.1, r.2.1)
    | none => (r.1, r.2.1)

/-- Modelled from the spec: the `_sync_doc` of `ValidateFunctionDefinition` is
not under `src/`.  Per the spec, `validate_doc_update` is a single code string
with no per-name slot: more than one validator supplied for one document fails
as a uniqueness conflict (the repository's `test_sync_two_validate_funcs_per_doc`
expects this error); exactly one validator overwrites the field and records
its language; zero validators leave the field untouched, and a kept stored
validator folds the document's stored language into the language set exactly
like an undeclared stale artifact of a mapping kind does. -/
def validate_sync_field (cur : Option String) (defs : List ValidateFunctionDefinition)
    (remove_missing : Bool) (langs : Lset) (docLanguage : Option String) :
    Except Err (Option String × Lset) :=
  match defs with
  | [] =>
    if !remove_missing && cur.isSome then
      match docLanguage with
      | some L => Except.ok (cur, Lset.insert L langs)
      | none => Except.ok (cur, langs)
    else Except.ok (cur, langs)
  | [v] => Except.ok (some v.func, Lset.insert v.language langs)
  | _ => Except.error Err.validatorConflict

/-! ### `_DesignDocument` -/

/-- The per-kind buckets `_DesignDocument.from_definitions` sorts a document
group's records into. -/
structure DesignDocRecords where
  design : String
  views : List ViewDefinition
  update_handlers : List UpdateHandlerDefinition
  validate_functions : List ValidateFunctionDefinition
  show_functions : List ShowFunctionDefinition
deriving DecidableEq, Repr

/-- Total number of records in the buckets. -/
def DesignDocRecords.total (dd : DesignDocRecords) : Nat :=
  dd.views.length + dd.update_handlers.length + dd.validate_functions.length
    + dd.show_functions.length

/-- The classification loop of `from_definitions`: each record is appended to
its kind's bucket; a record of an unrecognized kind raises `TypeError`. -/
def from_definitions_go : List Defn → DesignDocRecords → Except Err DesignDocRecords
  | [], acc => Except.ok acc
  | Defn.view v :: ds, acc =>
    from_definitions_go ds { acc with views := acc.views ++ [v] }
  | Defn.update_handler u :: ds, acc =>
    from_definitions_go ds { acc with update_handlers := acc.update_handlers ++ [u] }
  | Defn.validate_function f :: ds, acc =>
    from_definitions_go ds { acc with validate_functions := acc.validate_functions ++ [f] }
  | Defn.show_function f :: ds, acc =>
    from_definitions_go ds { acc with show_functions := acc.show_functions ++ [f] }
  | Defn.other _ :: _, _ => Except.error Err.unsupportedKind

/-- `_DesignDocument.from_definitions` (the `__init__` strips the design
prefix again). -/
def from_definitions (design : String) (defs : List Defn) : Except Err DesignDocRecords :=
  from_definitions_go defs
    { design := stripDesignPrefix design, views := [], update_handlers := []
      validate_functions := [], show_functions := [] }

/-- The views merge step of `_sync_doc` (`ViewDefinition._sync_doc`). -/
def syncViews (dd : DesignDocRecords) (doc : Doc) (remove_missing : Bool) :
    Option (Smap ViewSpec) × Lset :=
  _sync_dict_field (fun v => v.name) ViewDefinition.get_definition (fun v => v.language)
    doc.views dd.views remove_missing [] doc.language

/-- The update-handlers merge step of `_sync_doc`
(`UpdateHandlerDefinition._sync_doc`, wire field key `updates`). -/
def syncUpdates (dd : DesignDocRecords) (doc : Doc) (remove_missing : Bool) :
    Option (Smap String) × Lset :=
  _sync_dict_field (fun u => u.name) (fun u => u.func) (fun u => u.language)
    doc.updates dd.update_handlers remove_missing (syncViews dd doc remove_missing).2 doc.language

/-- The validator merge step of `_sync_doc` (modelled from the spec, see
`validate_sync_field`). -/
def syncValidate (dd : DesignDocRecords) (doc : Doc) (remove_missing : Bool) :
    Except Err (Option String × Lset) :=
  validate_sync_field doc.validate_doc_update dd.validate_functions remove_missing
    (syncUpdates dd doc remove_missing).2 doc.language

/-- The show-functions merge step of `_sync_doc` (modelled from the spec:
`shows` is a name-to-code mapping merged exactly like the other mapping
kinds). -/
def syncShows (dd : DesignDocRecords) (doc : Doc) (remove_missing : Bool)
    (rvd : Option String × Lset) : Option (Smap String) × Lset :=
  _sync_dict_field (fun s => s.name) (fun s => s.func) (fun s => s.language)
    doc.shows dd.show_functions remove_missing rvd.2 doc.language

/-- `_DesignDocument._sync_doc`: run each kind's merge over the document (the
validator and show-function kinds are modelled from the spec, see above), then
check the accumulated language set: more than one language raises the
language-conflict `ValueError` carrying `list(languages)`; `list(languages)[0]`
on an empty set would raise `IndexError`; otherwise the document's `language`
field is set to the single language. -/
def _sync_doc (dd : DesignDocRecords) (doc : Doc) (remove_missing : Bool) : Except Err Doc :=
  match syncValidate dd doc remove_missing with
  | Except.error e => Except.error e
  | Except.ok rvd =>
    let rs := syncShows dd doc remove_missing rvd
    if 1 < rs.2.length then Except.error (Err.languageConflict rs.2)
    else
      match rs.2 with
      | [] => Except.error Err.indexError
      | l :: _ =>
        Except.ok { doc with views := (syncViews dd doc remove_missing).1
                             updates := (syncUpdates dd doc remove_missing).1
                             shows := rs.1
                             validate_doc_update := rvd.1
                             language := some l }

/-! ### `sync_definitions` / `sync_many` -/

/-- The collaborator store: document id to stored document. -/
abbrev Store : Type := Smap Doc

/-- `db.get(doc_id, dict(_id=doc_id))`. -/
def db_get (db : Store) (docId : String) : Doc :=
  (Smap.lookup docId db).getD (emptyDesignDoc docId)

deriving instance DecidableEq for Except

/-- Outcome of one `sync_definitions` call before the bulk commit: the ids
fetched from the store (in order) and either the list of changed documents
handed to `db.update` or the error that aborted the call. -/
structure SyncOutcome where
  fetched : List String
  result : Except Err (List Doc)
deriving DecidableEq, Repr

/-- The loop of `_DesignDocument.sync_many` over the lazily-built design
documents: `from_definitions` runs when the group is pulled from the
generator, then the document is fetched, merged, and appended to the changed
list when it differs from the deep copy of its original state. -/
def sync_many_go (db : Store) (remove_missing : Bool) :
    List (String × List Defn) → List String → List Doc → SyncOutcome
  | [], log, docs => { fetched := log, result := Except.ok docs }
  | (design, gdefs) :: rest, log, docs =>
    match from_definitions design gdefs with
    | Except.error e => { fetched := log, result := Except.error e }
    | Except.ok dd =>
      let docId := "_design/" ++ dd.design
      let doc := db_get db docId
      match _sync_doc dd doc remove_missing with
      | Except.error e => { fetched := log ++ [docId], result := Except.error e }
      | Except.ok newDoc =>
        if newDoc ≠ doc then sync_many_go db remove_missing rest (log ++ [docId]) (docs ++ [newDoc])
        else sync_many_go db remove_missing rest (log ++ [docId]) docs

/-- Python's `sorted(definitions, key=attrgetter('design'))` — a stable sort
by design name (insertion sort is stable). -/
def sortDefs (defs : List Defn) : List Defn :=
  List.insertionSort (fun a b : Defn => strLeB a.design b.design = true) defs

/-- `itertools.groupby(..., key=attrgetter('design'))`: consecutive runs
sharing a design name. -/
def groupRuns {α : Type} (key : α → String) : List α → List (String × List α)
  | [] => []
  | x :: xs =>
    match groupRuns key xs with
    | [] => [(key x, [x])]
    | (k, g) :: rest =>
      if key x = k then (k, x :: g) :: rest else (key x, [x]) :: (k, g) :: rest

/-- The grouping performed by `sync_definitions`: stable-sort by design name,
then group consecutive runs. -/
def groupList (defs : List Defn) : List (String × List Defn) :=
  groupRuns Defn.design (sortDefs defs)

/-- `sync_definitions(db, definitions, remove_missing, ...)` up to (but not
including) the final `db.update(docs)` bulk commit. -/
def sync_definitions (db : Store) (definitions : List Defn) (remove_missing : Bool) :
    SyncOutcome :=
  sync_many_go db remove_missing (groupList definitions) [] []

/-- The collaborator's bulk write `db.update(docs)`: each changed document is
stored under its id with a fresh revision token chosen by the store. -/
def applyCommit (db : Store) (docs : List Doc) (newRev : String → String) : Store :=
  docs.foldl (fun s d => Smap.insert d.docId { d with rev := some (newRev d.docId) } s) db

/-- Result of one whole reconciliation call: the store after the call, the
ids fetched, and the outcome. -/
structure RunResult where
  store : Store
  fetched : List String
  result : Except Err (List Doc)
deriving Repr

/-- One whole reconciliation call against a store: `sync_definitions` followed
by the bulk commit of the changed documents (on success); an error aborts the
call before `db.update` runs, leaving the store untouched. -/
def reconcile (db : Store) (definitions : List Defn) (remove_missing : Bool)
    (newRev : String → String) : RunResult :=
  let o := sync_definitions db definitions remove_missing
  { store :=
      match o.result with
      | Except.ok docs => applyCommit db docs newRev
      | Except.error _ => db
    fetched := o.fetched
    result := o.result }

/-! ### Lemmas: the lexicographic string order -/

theorem lexLtB_cons_iff (x y : Char) (xs ys : List Char) :
    lexLtB (x :: xs) (y :: ys) = true ↔ x < y ∨ (x = y ∧ lexLtB xs ys = true) := by
  simp only [lexLtB]
  split_ifs with h1 h2
  · simp [h1]
  · simp [h1, h2]
  · simp [h1, h2]

theorem lexLtB_irrefl : ∀ l : List Char, lexLtB l l = false
  | [] => rfl
  | x :: xs => by
    rw [Bool.eq_false_iff]
    intro h
    rcases (lexLtB_cons_iff x x xs xs).1 h with h' | ⟨_, h'⟩
    · exact lt_irrefl x h'
    · rw [lexLtB_irrefl xs] at h'
      exact Bool.false_ne_true h'

theorem lexLtB_trans : ∀ (a b c : List Char),
    lexLtB a b = true → lexLtB b c = true → lexLtB a c = true
  | a, [], _ => by intro h _; cases a <;> simp [lexLtB] at h
  | _, _ :: _, [] => by intro _ h; simp [lexLtB] at h
  | [], _ :: _, _ :: _ => by intro _ _; rfl
  | x :: xs, y :: ys, z :: zs => by
    intro h1 h2
    rcases (lexLtB_cons_iff x y xs ys).1 h1 with hxy | ⟨hxy, hr1⟩ <;>
      rcases (lexLtB_cons_iff y z ys zs).1 h2 with hyz | ⟨hyz, hr2⟩
    · exact (lexLtB_cons_iff x z xs zs).2 (Or.inl (lt_trans hxy hyz))
    · exact (lexLtB_cons_iff x z xs zs).2 (Or.inl (hyz ▸ hxy))
    · exact (lexLtB_cons_iff x z xs zs).2 (Or.inl (hxy ▸ hyz))
    · exact (lexLtB_cons_iff x z xs zs).2
        (Or.inr ⟨hxy.trans hyz, lexLtB_trans xs ys zs hr1 hr2⟩)

theorem lexLtB_asymm {a b : List Char} (h : lexLtB a b = true) : lexLtB b a = false := by
  rw [Bool.eq_false_iff]
  intro h2
  have := lexLtB_trans a b a h h2
  rw [lexLtB_irrefl a] at this
  exact Bool.false_ne_true this

theorem lexLtB_eq_of_not_lt : ∀ (a b : List Char),
    lexLtB a b = false → lexLtB b a = false → a = b
  | [], [] => by intro _ _; rfl
  | [], _ :: _ => by intro h _; cases h
  | _ :: _, [] => by intro _ h; cases h
  | x :: xs, y :: ys => by
    intro h1 h2
    have hxy : ¬ x < y := fun hlt =>
      Bool.false_ne_true (h1 ▸ (lexLtB_cons_iff x y xs ys).2 (Or.inl hlt))
    have hyx : ¬ y < x := fun hlt =>
      Bool.false_ne_true (h2 ▸ (lexLtB_cons_iff y x ys xs).2 (Or.inl hlt))
    have hxye : x = y := le_antisymm (le_of_not_lt hyx) (le_of_not_lt hxy)
    have h1' : lexLtB xs ys = false := by
      rw [Bool.eq_false_iff]
      intro h
      exact Bool.false_ne_true (h1 ▸ (lexLtB_cons_iff x y xs ys).2 (Or.inr ⟨hxye, h⟩))
    have h2' : lexLtB ys xs = false := by
      rw [Bool.eq_false_iff]
      intro h
      exact Bool.false_ne_true (h2 ▸ (lexLtB_cons_iff y x ys xs).2 (Or.inr ⟨hxye.symm, h⟩))
    rw [hxye, lexLtB_eq_of_not_lt xs ys h1' h2']

theorem strLtB_irrefl (a : String) : strLtB a a = false := lexLtB_irrefl a.data

theorem strLtB_trans {a b c : String} (h1 : strLtB a b = true) (h2 : strLtB b c = true) :
    strLtB a c = true := lexLtB_trans a.data b.data c.data h1 h2

theorem strLtB_asymm {a b : String} (h : strLtB a b = true) : strLtB b a = false :=
  lexLtB_asymm h

theorem strLtB_eq_of_not_lt {a b : String} (h1 : strLtB a b = false)
    (h2 : strLtB b a = false) : a = b :=
  String.ext (lexLtB_eq_of_not_lt a.data b.data h1 h2)

theorem strLtB_of_ne_of_not_lt {a b : String} (hne : a ≠ b) (h : strLtB a b = false) :
    strLtB b a = true := by
  cases hba : strLtB b a with
  | true => rfl
  | false => exact absurd (strLtB_eq_of_not_lt h hba) hne

theorem strLeB_iff (a b : String) : strLeB a b = true ↔ strLtB b a = false := by
  unfold strLeB
  cases strLtB b a <;> simp

theorem strLeB_total (a b : String) : strLeB a b = true ∨ strLeB b a = true := by
  rw [strLeB_iff, strLeB_iff]
  cases h : strLtB b a with
  | false => exact Or.inl rfl
  | true => exact Or.inr (strLtB_asymm h)

theorem strLeB_trans {a b c : String} (h1 : strLeB a b = true) (h2 : strLeB b c = true) :
    strLeB a c = true := by
  rw [strLeB_iff] at h1 h2 ⊢
  cases hca : strLtB c a with
  | false => rfl
  | true =>
    by_cases hab : b = a
    · subst hab
      rw [h2] at hca
      cases hca
    · have hib : strLtB a b = true := strLtB_of_ne_of_not_lt hab h1
      have := strLtB_trans hca hib
      rw [h2] at this
      cases this

theorem strLeB_antisymm {a b : String} (h1 : strLeB a b = true) (h2 : strLeB b a = true) :
    a = b := by
  rw [strLeB_iff] at h1 h2
  exact strLtB_eq_of_not_lt h2 h1

/-! ### Lemmas: canonical maps -/

theorem Smap.lookup_insert_self {α : Type} (k : String) (v : α) :
    ∀ m : Smap α, Smap.lookup k (Smap.insert k v m) = some v
  | [] => by simp [Smap.insert, Smap.lookup]
  | (k1, v1) :: t => by
    simp only [Smap.insert]
    by_cases h1 : strLtB k k1 = true
    · rw [if_pos h1]
      simp [Smap.lookup]
    · rw [if_neg h1]
      by_cases h2 : k = k1
      · rw [if_pos h2]
        simp [Smap.lookup]
      · rw [if_neg h2]
        simp only [Smap.lookup, if_neg h2]
        exact Smap.lookup_insert_self k v t

theorem Smap.lookup_insert_ne {α : Type} {k k' : String} (hne : k' ≠ k) (v : α) :
    ∀ m : Smap α, Smap.lookup k' (Smap.insert k v m) = Smap.lookup k' m
  | [] => by simp [Smap.insert, Smap.lookup, hne]
  | (k1, v1) :: t => by
    simp only [Smap.insert]
    by_cases h1 : strLtB k k1 = true
    · rw [if_pos h1]
      simp only [Smap.lookup, if_neg hne]
    · rw [if_neg h1]
      by_cases h2 : k = k1
      · subst h2
        simp only [Smap.lookup, if_neg hne]
      · rw [if_neg h2]
        simp only [Smap.lookup]
        by_cases h3 : k' = k1
        · rw [if_pos h3, if_pos h3]
        · rw [if_neg h3, if_neg h3]
          exact Smap.lookup_insert_ne hne v t

theorem Smap.lookup_erase_ne {α : Type} {k k' : String} (hne : k' ≠ k) :
    ∀ m : Smap α, Smap.lookup k' (Smap.erase k m) = Smap.lookup k' m
  | [] => rfl
  | (k1, v1) :: t => by
    simp only [Smap.erase]
    split_ifs with h1
    · subst h1
      simp only [Smap.lookup, if_neg hne]
    · simp only [Smap.lookup]
      by_cases h3 : k' = k1
      · rw [if_pos h3, if_pos h3]
      · rw [if_neg h3, if_neg h3]
        exact Smap.lookup_erase_ne hne t

/-- In a canonical map the head key is below every other key. -/
theorem Smap.Canon.head_lt {α : Type} {k1 : String} {v1 : α} {t : Smap α}
    (h : Smap.Canon ((k1, v1) :: t)) : ∀ p ∈ t, strLtB k1 p.1 = true := by
  intro p hp
  induction t generalizing k1 v1 with
  | nil => cases hp
  | cons q t ih =>
    rcases q with ⟨k2, v2⟩
    have hc := List.chain'_cons.mp h
    rw [List.mem_cons] at hp
    rcases hp with hp | hp
    · subst hp
      exact hc.1
    · exact strLtB_trans hc.1 (ih hc.2 hp)

theorem Smap.Canon.tail {α : Type} {p : String × α} {t : Smap α}
    (h : Smap.Canon (p :: t)) : Smap.Canon t :=
  List.Chain'.tail h

theorem Smap.lookup_eq_none_of_not_mem {α : Type} {k : String} {m : Smap α}
    (h : k ∉ Smap.keys m) : Smap.lookup k m = none := by
  induction m with
  | nil => rfl
  | cons p t ih =>
    rcases p with ⟨k1, v1⟩
    simp only [Smap.keys, List.map_cons, List.mem_cons] at h
    push_neg at h
    simp only [Smap.lookup]
    rw [if_neg h.1]
    exact ih (by simpa [Smap.keys] using h.2)

theorem Smap.mem_keys_of_lookup {α : Type} {k : String} {m : Smap α} {v : α}
    (h : Smap.lookup k m = some v) : k ∈ Smap.keys m := by
  by_contra hmem
  rw [Smap.lookup_eq_none_of_not_mem hmem] at h
  cases h

theorem Smap.Canon.not_mem_keys_head {α : Type} {k1 : String} {v1 : α} {t : Smap α}
    (h : Smap.Canon ((k1, v1) :: t)) : Smap.lookup k1 t = none := by
  cases hl : Smap.lookup k1 t with
  | none => rfl
  | some v =>
    rcases List.mem_map.1 (Smap.mem_keys_of_lookup hl) with ⟨q, hq, hqe⟩
    have hlt := h.head_lt q hq
    rw [hqe, strLtB_irrefl] at hlt
    cases hlt

theorem Smap.Canon.nodup_keys {α : Type} {m : Smap α} (h : Smap.Canon m) :
    (Smap.keys m).Nodup := by
  induction m with
  | nil => exact List.nodup_nil
  | cons p t ih =>
    rcases p with ⟨k1, v1⟩
    simp only [Smap.keys, List.map_cons, List.nodup_cons]
    refine ⟨fun hmem => ?_, ih h.tail⟩
    rcases List.mem_map.1 hmem with ⟨q, hq, hqe⟩
    have hlt := h.head_lt q hq
    rw [hqe, strLtB_irrefl] at hlt
    cases hlt

theorem Smap.mem_insert_cases {α : Type} {y : String × α} {k : String} {v : α} :
    ∀ (t : Smap α), y ∈ Smap.insert k v t → y.1 = k ∨ y ∈ t
  | [], hy => by
    simp only [Smap.insert, List.mem_singleton] at hy
    exact Or.inl (by rw [hy])
  | (k1, v1) :: t, hy => by
    simp only [Smap.insert] at hy
    split_ifs at hy with h1 h2
    · rw [List.mem_cons] at hy
      rcases hy with hy | hy
      · exact Or.inl (by rw [hy])
      · exact Or.inr hy
    · rw [List.mem_cons] at hy
      rcases hy with hy | hy
      · exact Or.inl (by rw [hy])
      · exact Or.inr (List.mem_cons_of_mem _ hy)
    · rw [List.mem_cons] at hy
      rcases hy with hy | hy
      · subst hy
        exact Or.inr (List.mem_cons_self _ t)
      · rcases Smap.mem_insert_cases t hy with he | hm
        · exact Or.inl he
        · exact Or.inr (List.mem_cons_of_mem _ hm)

theorem Smap.Canon.insert {α : Type} (k : String) (v : α) :
    ∀ {m : Smap α}, Smap.Canon m → Smap.Canon (Smap.insert k v m)
  | [], _ => List.chain'_singleton _
  | (k1, v1) :: t, h => by
    simp only [Smap.insert]
    split_ifs with h1 h2
    · exact List.Chain'.cons h1 h
    · subst h2
      refine List.Chain'.cons' h.tail ?_
      intro y hy
      exact h.head_lt y (List.mem_of_mem_head? hy)
    · have hlt : strLtB k1 k = true := strLtB_of_ne_of_not_lt h2
        (by rwa [Bool.not_eq_true] at h1)
      refine List.Chain'.cons' (Smap.Canon.insert k v h.tail) ?_
      intro y hy
      rcases Smap.mem_insert_cases t (List.mem_of_mem_head? hy) with he | hm
      · rw [he]
        exact hlt
      · exact h.head_lt y hm

theorem Smap.mem_erase_of_mem {α : Type} {y : String × α} {k : String} :
    ∀ (t : Smap α), y ∈ Smap.erase k t → y ∈ t
  | [], hy => by cases hy
  | (k1, v1) :: t, hy => by
    simp only [Smap.erase] at hy
    split_ifs at hy with h1
    · exact List.mem_cons_of_mem _ hy
    · rw [List.mem_cons] at hy
      rcases hy with hy | hy
      · subst hy
        exact List.mem_cons_self _ t
      · exact List.mem_cons_of_mem _ (Smap.mem_erase_of_mem t hy)

theorem Smap.Canon.erase {α : Type} (k : String) :
    ∀ {m : Smap α}, Smap.Canon m → Smap.Canon (Smap.erase k m)
  | [], _ => List.chain'_nil
  | (k1, v1) :: t, h => by
    simp only [Smap.erase]
    split_ifs with h1
    · exact h.tail
    · refine List.Chain'.cons' (Smap.Canon.erase k h.tail) ?_
      intro y hy
      exact h.head_lt y (Smap.mem_erase_of_mem t (List.mem_of_mem_head? hy))

theorem Smap.Canon.lookup_erase_self {α : Type} {k : String} :
    ∀ {m : Smap α}, Smap.Canon m → Smap.lookup k (Smap.erase k m) = none
  | [], _ => rfl
  | (k1, v1) :: t, h => by
    simp only [Smap.erase]
    split_ifs with h1
    · subst h1
      exact h.not_mem_keys_head
    · simp only [Smap.lookup]
      rw [if_neg h1]
      exact Smap.Canon.lookup_erase_self h.tail

/-- Canonical maps with the same lookups are equal. -/
theorem Smap.Canon.ext {α : Type} :
    ∀ {m m2 : Smap α}, Smap.Canon m → Smap.Canon m2 →
      (∀ k, Smap.lookup k m = Smap.lookup k m2) → m = m2
  | [], [], _, _, _ => rfl
  | [], (k2, v2) :: t2, _, _, hl => by
    have := hl k2
    simp [Smap.lookup] at this
  | (k1, v1) :: t, [], _, _, hl => by
    have := hl k1
    simp [Smap.lookup] at this
  | (k1, v1) :: t, (k2, v2) :: t2, h, h2, hl => by
    have hk : k1 = k2 := by
      by_contra hne
      have ha : Smap.lookup k1 ((k2, v2) :: t2) = some v1 := by
        rw [← hl k1]
        simp [Smap.lookup]
      have hat : Smap.lookup k1 t2 = some v1 := by
        simpa [Smap.lookup, if_neg hne] using ha
      rcases List.mem_map.1 (Smap.mem_keys_of_lookup hat) with ⟨q, hq, hqe⟩
      have hlt1 : strLtB k2 k1 = true := by
        have := h2.head_lt q hq
        rwa [hqe] at this
      have hb : Smap.lookup k2 ((k1, v1) :: t) = some v2 := by
        rw [hl k2]
        simp [Smap.lookup]
      have hbt : Smap.lookup k2 t = some v2 := by
        simpa [Smap.lookup, if_neg (Ne.symm hne)] using hb
      rcases List.mem_map.1 (Smap.mem_keys_of_lookup hbt) with ⟨q2, hq2, hq2e⟩
      have hlt2 : strLtB k1 k2 = true := by
        have := h.head_lt q2 hq2
        rwa [hq2e] at this
      rw [strLtB_asymm hlt2] at hlt1
      cases hlt1
    subst hk
    have hv : v1 = v2 := by
      have := hl k1
      simpa [Smap.lookup] using this
    subst hv
    have ht : t = t2 := Smap.Canon.ext h.tail h2.tail (fun k => by
      by_cases hk1 : k = k1
      · subst hk1
        rw [h.not_mem_keys_head, h2.not_mem_keys_head]
      · have := hl k
        simpa [Smap.lookup, if_neg hk1] using this)
    rw [ht]

/-! ### Lemmas: language sets -/

/-- The canonical-form invariant for language sets. -/
abbrev Lset.Canon (s : Lset) : Prop :=
  List.Chain' (fun a b : String => strLtB a b = true) s

theorem Lset.mem_insert_iff {x y : String} :
    ∀ (s : Lset), x ∈ Lset.insert y s ↔ x = y ∨ x ∈ s
  | [] => by simp [Lset.insert]
  | z :: t => by
    simp only [Lset.insert]
    split_ifs with h1 h2
    · simp only [List.mem_cons]
    · subst h2
      simp only [List.mem_cons]
      tauto
    · simp only [List.mem_cons, Lset.mem_insert_iff t]
      tauto

theorem Lset.Canon.lset_head_lt {k1 : String} {t : Lset}
    (h : Lset.Canon (k1 :: t)) : ∀ p ∈ t, strLtB k1 p = true := by
  intro p hp
  induction t generalizing k1 with
  | nil => cases hp
  | cons k2 t ih =>
    have hc := List.chain'_cons.mp h
    rw [List.mem_cons] at hp
    rcases hp with hp | hp
    · subst hp
      exact hc.1
    · exact strLtB_trans hc.1 (ih hc.2 hp)

theorem Lset.Canon.lset_tail {p : String} {t : Lset} (h : Lset.Canon (p :: t)) : Lset.Canon t :=
  List.Chain'.tail h

theorem Lset.lset_mem_insert_cases {y k : String} :
    ∀ (t : Lset), y ∈ Lset.insert k t → y = k ∨ y ∈ t
  | [], hy => by
    simp only [Lset.insert, List.mem_singleton] at hy
    exact Or.inl hy
  | z :: t, hy => by
    simp only [Lset.insert] at hy
    split_ifs at hy with h1 h2
    · rw [List.mem_cons] at hy
      exact hy
    · exact Or.inr hy
    · rw [List.mem_cons] at hy
      rcases hy with hy | hy
      · subst hy
        exact Or.inr (List.mem_cons_self _ t)
      · rcases Lset.lset_mem_insert_cases t hy with he | hm
        · exact Or.inl he
        · exact Or.inr (List.mem_cons_of_mem _ hm)

theorem Lset.Canon.lset_insert (k : String) :
    ∀ {s : Lset}, Lset.Canon s → Lset.Canon (Lset.insert k s)
  | [], _ => List.chain'_singleton _
  | z :: t, h => by
    simp only [Lset.insert]
    split_ifs with h1 h2
    · exact List.Chain'.cons h1 h
    · subst h2
      exact h
    · have hlt : strLtB z k = true := strLtB_of_ne_of_not_lt h2
        (by rwa [Bool.not_eq_true] at h1)
      refine List.Chain'.cons' (Lset.Canon.lset_insert k h.lset_tail) ?_
      intro y hy
      rcases Lset.lset_mem_insert_cases t (List.mem_of_mem_head? hy) with he | hm
      · rw [he]
        exact hlt
      · exact h.lset_head_lt y hm

theorem Lset.Canon.nodup {s : Lset} (h : Lset.Canon s) : s.Nodup := by
  induction s with
  | nil => exact List.nodup_nil
  | cons z t ih =>
    rw [List.nodup_cons]
    refine ⟨fun hmem => ?_, ih h.lset_tail⟩
    have hlt := h.lset_head_lt z hmem
    rw [strLtB_irrefl] at hlt
    cases hlt

/-- A non-empty duplicate-free list all of whose members equal `x` is `[x]`. -/
theorem eq_singleton_of_all_eq {x : String} :
    ∀ (s : List String), s ≠ [] → (∀ y ∈ s, y = x) → s.Nodup → s = [x]
  | [], h, _, _ => absurd rfl h
  | [z], _, hall, _ => by rw [hall z (List.mem_singleton_self z)]
  | z :: w :: t, _, hall, hnd => by
    have hz : z = x := hall z (List.mem_cons_self _ _)
    have hw : w = x := hall w (List.mem_cons_of_mem _ (List.mem_cons_self _ _))
    rw [List.nodup_cons] at hnd
    exact absurd (by rw [hz, hw]; exact List.mem_cons_self _ _) hnd.1

/-! ### Lemmas: the merge loop and `_sync_dict_field` -/

/-- The record that survives for artifact name `n`: the last record in input
order bearing that name (later writes overwrite earlier ones). -/
def lastMatch {δ : Type} (getName : δ → String) (n : String) : List δ → Option δ
  | [] => none
  | d :: ds =>
    match lastMatch getName n ds with
    | some x => some x
    | none => if getName d = n then some d else none

theorem lastMatch_eq_none_iff {δ : Type} (gn : δ → String) (n : String) :
    ∀ (ds : List δ), lastMatch gn n ds = none ↔ ∀ d ∈ ds, gn d ≠ n
  | [] => by simp [lastMatch]
  | d :: ds => by
    simp only [lastMatch]
    cases h : lastMatch gn n ds with
    | some x =>
      simp only []
      constructor
      · intro hx
        cases hx
      · intro hall
        rw [(lastMatch_eq_none_iff gn n ds).2 (fun d' hd' => hall d' (List.mem_cons_of_mem d hd'))] at h
        cases h
    | none =>
      have hall := (lastMatch_eq_none_iff gn n ds).1 h
      by_cases he : gn d = n
      · rw [if_pos he]
        simp only [List.mem_cons]
        constructor
        · intro hx
          cases hx
        · intro hl
          exact absurd he (hl d (Or.inl rfl))
      · rw [if_neg he]
        simp only [List.mem_cons]
        constructor
        · intro _ d' hd'
          rcases hd' with hd' | hd'
          · subst hd'
            exact he
          · exact hall d' hd'
        · intro _
          trivial

theorem lastMatch_mem {δ : Type} (gn : δ → String) (n : String) :
    ∀ (ds : List δ) (d : δ), lastMatch gn n ds = some d → d ∈ ds ∧ gn d = n
  | [], d => by intro h; cases h
  | d0 :: ds, d => by
    simp only [lastMatch]
    cases h : lastMatch gn n ds with
    | some x =>
      intro hx
      cases hx
      rcases lastMatch_mem gn n ds d h with ⟨hm, hn⟩
      exact ⟨List.mem_cons_of_mem d0 hm, hn⟩
    | none =>
      by_cases he : gn d0 = n
      · rw [if_pos he]
        intro hx
        cases hx
        exact ⟨List.mem_cons_self _ _, he⟩
      · rw [if_neg he]
        intro hx
        cases hx

section SdfLemmas

variable {δ α : Type} (gn : δ → String) (gd : δ → α) (gl : δ → String)

theorem sdfLoop_fld_lookup :
    ∀ (defs : List δ) (fld : Option (Smap α)) (ls : Lset) (miss : List String) (n : String),
      Smap.lookup n ((sdfLoop gn gd gl defs fld ls miss).1.getD []) =
        (match lastMatch gn n defs with
         | some d => some (gd d)
         | none => Smap.lookup n (fld.getD []))
  | [], fld, ls, miss, n => rfl
  | d :: ds, fld, ls, miss, n => by
    simp only [sdfLoop]
    rw [sdfLoop_fld_lookup ds]
    simp only [lastMatch]
    cases lastMatch gn n ds with
    | some x => rfl
    | none =>
      simp only [Option.getD_some]
      by_cases he : gn d = n
      · rw [if_pos he, he]
        exact Smap.lookup_insert_self n (gd d) (fld.getD [])
      · rw [if_neg he]
        exact Smap.lookup_insert_ne (fun hh => he hh.symm) (gd d) (fld.getD [])

theorem sdfLoop_fld_none_iff :
    ∀ (defs : List δ) (fld : Option (Smap α)) (ls : Lset) (miss : List String),
      (sdfLoop gn gd gl defs fld ls miss).1 = none ↔ fld = none ∧ defs = []
  | [], fld, ls, miss => by simp [sdfLoop]
  | d :: ds, fld, ls, miss => by
    simp only [sdfLoop]
    rw [sdfLoop_fld_none_iff ds]
    simp

theorem sdfLoop_fld_canon :
    ∀ (defs : List δ) (fld : Option (Smap α)) (ls : Lset) (miss : List String),
      Smap.Canon (fld.getD []) →
      Smap.Canon ((sdfLoop gn gd gl defs fld ls miss).1.getD [])
  | [], fld, ls, miss, h => h
  | d :: ds, fld, ls, miss, h => by
    simp only [sdfLoop]
    exact sdfLoop_fld_canon ds _ _ _ (Smap.Canon.insert _ _ h)

theorem sdfLoop_langs :
    ∀ (defs : List δ) (fld : Option (Smap α)) (ls : Lset) (miss : List String),
      (sdfLoop gn gd gl defs fld ls miss).2.1 =
        defs.foldl (fun s d => Lset.insert (gl d) s) ls
  | [], fld, ls, miss => rfl
  | d :: ds, fld, ls, miss => by
    simp only [sdfLoop, List.foldl_cons]
    exact sdfLoop_langs ds _ _ _

theorem sdfLoop_missing :
    ∀ (defs : List δ) (fld : Option (Smap α)) (ls : Lset) (miss : List String),
      (sdfLoop gn gd gl defs fld ls miss).2.2 =
        defs.foldl (fun m d => m.erase (gn d)) miss
  | [], fld, ls, miss => rfl
  | d :: ds, fld, ls, miss => by
    simp only [sdfLoop, List.foldl_cons]
    exact sdfLoop_missing ds _ _ _

theorem foldl_insert_mem_iff :
    ∀ (ds : List δ) (ls : Lset) (x : String),
      x ∈ ds.foldl (fun s d => Lset.insert (gl d) s) ls ↔
        x ∈ ls ∨ ∃ d ∈ ds, gl d = x
  | [], ls, x => by simp
  | d :: ds, ls, x => by
    simp only [List.foldl_cons]
    rw [foldl_insert_mem_iff ds]
    simp only [Lset.mem_insert_iff, List.mem_cons]
    constructor
    · intro h
      rcases h with (h | h) | ⟨d', hd', he⟩
      · exact Or.inr ⟨d, Or.inl rfl, h.symm⟩
      · exact Or.inl h
      · exact Or.inr ⟨d', Or.inr hd', he⟩
    · intro h
      rcases h with h | ⟨d', hd', he⟩
      · exact Or.inl (Or.inr h)
      · rcases hd' with hd' | hd'
        · subst hd'
          exact Or.inl (Or.inl he.symm)
        · exact Or.inr ⟨d', hd', he⟩

theorem foldl_insert_canon :
    ∀ (ds : List δ) (ls : Lset), Lset.Canon ls →
      Lset.Canon (ds.foldl (fun s d => Lset.insert (gl d) s) ls)
  | [], ls, h => h
  | d :: ds, ls, h => by
    simp only [List.foldl_cons]
    exact foldl_insert_canon ds _ (Lset.Canon.lset_insert _ h)

theorem foldl_erase_nodup :
    ∀ (ds : List δ) (miss : List String), miss.Nodup →
      (ds.foldl (fun m d => m.erase (gn d)) miss).Nodup
  | [], miss, h => h
  | d :: ds, miss, h => by
    simp only [List.foldl_cons]
    exact foldl_erase_nodup ds _ (h.erase _)

theorem foldl_erase_mem_iff :
    ∀ (ds : List δ) (miss : List String), miss.Nodup →
      ∀ n, n ∈ ds.foldl (fun m d => m.erase (gn d)) miss ↔
        n ∈ miss ∧ ∀ d ∈ ds, gn d ≠ n
  | [], miss, hnd, n => by simp
  | d :: ds, miss, hnd, n => by
    simp only [List.foldl_cons]
    rw [foldl_erase_mem_iff ds _ (hnd.erase _)]
    rw [List.Nodup.mem_erase_iff hnd]
    simp only [List.mem_cons]
    constructor
    · rintro ⟨⟨hne, hm⟩, hall⟩
      refine ⟨hm, fun d' hd' => ?_⟩
      rcases hd' with hd' | hd'
      · subst hd'
        exact fun hh => hne hh.symm
      · exact hall d' hd'
    · rintro ⟨hm, hall⟩
      exact ⟨⟨fun hh => hall d (Or.inl rfl) hh.symm, hm⟩,
        fun d' hd' => hall d' (Or.inr hd')⟩

theorem lookup_foldl_erase (n : String) :
    ∀ (ms : List String) (m : Smap α), Smap.Canon m →
      Smap.lookup n (ms.foldl (fun mm k => Smap.erase k mm) m) =
        if n ∈ ms then none else Smap.lookup n m
  | [], m, hc => by simp
  | k :: ms, m, hc => by
    simp only [List.foldl_cons]
    rw [lookup_foldl_erase n ms _ (hc.erase k)]
    by_cases hn : n = k
    · subst hn
      simp only [List.mem_cons, true_or, if_pos]
      by_cases hm : n ∈ ms
      · rw [if_pos hm]
      · rw [if_neg hm, hc.lookup_erase_self]
    · rw [Smap.lookup_erase_ne hn]
      simp only [List.mem_cons]
      by_cases hm : n ∈ ms
      · rw [if_pos hm, if_pos (Or.inr hm)]
      · rw [if_neg hm, if_neg (by rintro (h | h); exact hn h; exact hm h)]

end SdfLemmas

theorem foldl_erase_canon {α : Type} :
    ∀ (ms : List String) (m : Smap α), Smap.Canon m →
      Smap.Canon (ms.foldl (fun mm k => Smap.erase k mm) m)
  | [], m, h => h
  | k :: ms, m, h => by
    simp only [List.foldl_cons]
    exact foldl_erase_canon ms _ (h.erase k)

section SdfMain

variable {δ α : Type} (gn : δ → String) (gd : δ → α) (gl : δ → String)

theorem sdf_missing_spec (fld : Option (Smap α)) (defs : List δ) (ls : Lset)
    (hc : Smap.Canon (fld.getD [])) (n : String) :
    n ∈ (sdfLoop gn gd gl defs fld ls (Smap.keys (fld.getD []))).2.2 ↔
      n ∈ Smap.keys (fld.getD []) ∧ ∀ d ∈ defs, gn d ≠ n := by
  rw [sdfLoop_missing, foldl_erase_mem_iff gn defs _ hc.nodup_keys]

theorem sdf_missing_empty_of_rm {fld : Option (Smap α)} {defs : List δ} {rm : Bool}
    {ls : Lset}
    (hcond : ¬((rm && !(sdfLoop gn gd gl defs fld ls (Smap.keys (fld.getD []))).2.2.isEmpty) = true))
    (hrm : rm = true) :
    (sdfLoop gn gd gl defs fld ls (Smap.keys (fld.getD []))).2.2 = [] := by
  subst hrm
  rw [Bool.true_and] at hcond
  cases hemp : (sdfLoop gn gd gl defs fld ls (Smap.keys (fld.getD []))).2.2.isEmpty with
  | true => exact List.isEmpty_iff.mp hemp
  | false => exact absurd (by rw [hemp]; rfl) hcond

/-- Lookup in the field produced by `_sync_dict_field`: a declared artifact
name maps to the wire value of the last record bearing it; an undeclared name
is gone when `remove_missing` is set and untouched otherwise. -/
theorem sdf_fst_lookup (fld : Option (Smap α)) (defs : List δ) (rm : Bool) (ls : Lset)
    (dl : Option String) (hc : Smap.Canon (fld.getD [])) (n : String) :
    Smap.lookup n ((_sync_dict_field gn gd gl fld defs rm ls dl).1.getD []) =
      (match lastMatch gn n defs with
       | some d => some (gd d)
       | none => if rm = true then none else Smap.lookup n (fld.getD [])) := by
  simp only [_sync_dict_field]
  by_cases hcond : (rm && !(sdfLoop gn gd gl defs fld ls (Smap.keys (fld.getD []))).2.2.isEmpty) = true
  · rw [if_pos hcond]
    rw [Bool.and_eq_true] at hcond
    obtain ⟨hrm, hne⟩ := hcond
    dsimp only
    rw [Option.getD_some]
    rw [lookup_foldl_erase n _ _ (sdfLoop_fld_canon gn gd gl defs fld ls _ hc)]
    cases hlast : lastMatch gn n defs with
    | some d =>
      have hnm : n ∉ (sdfLoop gn gd gl defs fld ls (Smap.keys (fld.getD []))).2.2 := by
        rw [sdf_missing_spec gn gd gl fld defs ls hc n]
        rintro ⟨_, hall⟩
        rcases lastMatch_mem gn n defs d hlast with ⟨hmem, hgn⟩
        exact hall d hmem hgn
      rw [if_neg hnm, sdfLoop_fld_lookup, hlast]
    | none =>
      rw [hrm]
      simp only [if_true]
      by_cases hn : n ∈ (sdfLoop gn gd gl defs fld ls (Smap.keys (fld.getD []))).2.2
      · rw [if_pos hn]
      · rw [if_neg hn, sdfLoop_fld_lookup, hlast]
        rw [sdf_missing_spec gn gd gl fld defs ls hc n] at hn
        push_neg at hn
        have hall := (lastMatch_eq_none_iff gn n defs).1 hlast
        by_cases hk : n ∈ Smap.keys (fld.getD [])
        · rcases hn hk with ⟨d, hd, hgnd⟩
          exact absurd hgnd (hall d hd)
        · exact Smap.lookup_eq_none_of_not_mem hk
  · rw [if_neg hcond]
    have main : Smap.lookup n
        ((sdfLoop gn gd gl defs fld ls (Smap.keys (fld.getD []))).1.getD []) =
        (match lastMatch gn n defs with
         | some d => some (gd d)
         | none => if rm = true then none else Smap.lookup n (fld.getD [])) := by
      rw [sdfLoop_fld_lookup]
      cases hlast : lastMatch gn n defs with
      | some d => rfl
      | none =>
        cases hrm : rm with
        | false => simp
        | true =>
          simp only [if_true]
          have hempty := sdf_missing_empty_of_rm gn gd gl hcond hrm
          have hall := (lastMatch_eq_none_iff gn n defs).1 hlast
          by_cases hk : n ∈ Smap.keys (fld.getD [])
          · have hmem : n ∈ (sdfLoop gn gd gl defs fld ls (Smap.keys (fld.getD []))).2.2 :=
              (sdf_missing_spec gn gd gl fld defs ls hc n).2 ⟨hk, hall⟩
            rw [hempty] at hmem
            cases hmem
          · exact Smap.lookup_eq_none_of_not_mem hk
    cases dl with
    | some L =>
      dsimp only
      by_cases hne2 : (!(sdfLoop gn gd gl defs fld ls (Smap.keys (fld.getD []))).2.2.isEmpty) = true
      · rw [if_pos hne2]
        exact main
      · rw [if_neg hne2]
        exact main
    | none => exact main

/-- The field key exists after the merge iff a record was supplied or it
already existed. -/
theorem sdf_fst_none_iff (fld : Option (Smap α)) (defs : List δ) (rm : Bool) (ls : Lset)
    (dl : Option String) :
    (_sync_dict_field gn gd gl fld defs rm ls dl).1 = none ↔ fld = none ∧ defs = [] := by
  simp only [_sync_dict_field]
  by_cases hcond : (rm && !(sdfLoop gn gd gl defs fld ls (Smap.keys (fld.getD []))).2.2.isEmpty) = true
  · rw [if_pos hcond]
    dsimp only
    constructor
    · intro h
      cases h
    · rintro ⟨hf, hd⟩
      subst hf
      subst hd
      simp [sdfLoop, Smap.keys] at hcond
  · rw [if_neg hcond]
    have main := sdfLoop_fld_none_iff gn gd gl defs fld ls (Smap.keys (fld.getD []))
    cases dl with
    | some L =>
      dsimp only
      by_cases hne2 : (!(sdfLoop gn gd gl defs fld ls (Smap.keys (fld.getD []))).2.2.isEmpty) = true
      · rw [if_pos hne2]
        exact main
      · rw [if_neg hne2]
        exact main
    | none => exact main

theorem sdf_fst_canon (fld : Option (Smap α)) (defs : List δ) (rm : Bool) (ls : Lset)
    (dl : Option String) (hc : Smap.Canon (fld.getD [])) :
    Smap.Canon ((_sync_dict_field gn gd gl fld defs rm ls dl).1.getD []) := by
  simp only [_sync_dict_field]
  by_cases hcond : (rm && !(sdfLoop gn gd gl defs fld ls (Smap.keys (fld.getD []))).2.2.isEmpty) = true
  · rw [if_pos hcond]
    dsimp only
    rw [Option.getD_some]
    exact foldl_erase_canon _ _ (sdfLoop_fld_canon gn gd gl defs fld ls _ hc)
  · rw [if_neg hcond]
    have main := sdfLoop_fld_canon gn gd gl defs fld ls (Smap.keys (fld.getD [])) hc
    cases dl with
    | some L =>
      dsimp only
      by_cases hne2 : (!(sdfLoop gn gd gl defs fld ls (Smap.keys (fld.getD []))).2.2.isEmpty) = true
      · rw [if_pos hne2]
        exact main
      · rw [if_neg hne2]
        exact main
    | none => exact main

/-- Languages already accumulated stay accumulated. -/
theorem sdf_langs_mono (fld : Option (Smap α)) (defs : List δ) (rm : Bool) (ls : Lset)
    (dl : Option String) {x : String} (hx : x ∈ ls) :
    x ∈ (_sync_dict_field gn gd gl fld defs rm ls dl).2 := by
  have hloop : x ∈ (sdfLoop gn gd gl defs fld ls (Smap.keys (fld.getD []))).2.1 := by
    rw [sdfLoop_langs, foldl_insert_mem_iff gl]
    exact Or.inl hx
  simp only [_sync_dict_field]
  by_cases hcond : (rm && !(sdfLoop gn gd gl defs fld ls (Smap.keys (fld.getD []))).2.2.isEmpty) = true
  · rw [if_pos hcond]
    exact hloop
  · rw [if_neg hcond]
    cases dl with
    | some L =>
      dsimp only
      by_cases hne2 : (!(sdfLoop gn gd gl defs fld ls (Smap.keys (fld.getD []))).2.2.isEmpty) = true
      · rw [if_pos hne2]
        exact (Lset.mem_insert_iff _).2 (Or.inr hloop)
      · rw [if_neg hne2]
        exact hloop
    | none => exact hloop

/-- Every supplied record's language is accumulated. -/
theorem sdf_langs_of_def (fld : Option (Smap α)) (defs : List δ) (rm : Bool) (ls : Lset)
    (dl : Option String) {d : δ} (hd : d ∈ defs) :
    gl d ∈ (_sync_dict_field gn gd gl fld defs rm ls dl).2 := by
  have hloop : gl d ∈ (sdfLoop gn gd gl defs fld ls (Smap.keys (fld.getD []))).2.1 := by
    rw [sdfLoop_langs, foldl_insert_mem_iff gl]
    exact Or.inr ⟨d, hd, rfl⟩
  simp only [_sync_dict_field]
  by_cases hcond : (rm && !(sdfLoop gn gd gl defs fld ls (Smap.keys (fld.getD []))).2.2.isEmpty) = true
  · rw [if_pos hcond]
    exact hloop
  · rw [if_neg hcond]
    cases dl with
    | some L =>
      dsimp only
      by_cases hne2 : (!(sdfLoop gn gd gl defs fld ls (Smap.keys (fld.getD []))).2.2.isEmpty) = true
      · rw [if_pos hne2]
        exact (Lset.mem_insert_iff _).2 (Or.inr hloop)
      · rw [if_neg hne2]
        exact hloop
    | none => exact hloop

/-- Everything accumulated comes from the input set, a record, or the stored
document language. -/
theorem sdf_langs_subset (fld : Option (Smap α)) (defs : List δ) (rm : Bool) (ls : Lset)
    (dl : Option String) {x : String}
    (hx : x ∈ (_sync_dict_field gn gd gl fld defs rm ls dl).2) :
    x ∈ ls ∨ (∃ d ∈ defs, gl d = x) ∨ dl = some x := by
  have hloop : ∀ y : String,
      y ∈ (sdfLoop gn gd gl defs fld ls (Smap.keys (fld.getD []))).2.1 →
      y ∈ ls ∨ ∃ d ∈ defs, gl d = y := by
    intro y hy
    rw [sdfLoop_langs, foldl_insert_mem_iff gl] at hy
    exact hy
  simp only [_sync_dict_field] at hx
  by_cases hcond : (rm && !(sdfLoop gn gd gl defs fld ls (Smap.keys (fld.getD []))).2.2.isEmpty) = true
  · rw [if_pos hcond] at hx
    rcases hloop x hx with h | h
    · exact Or.inl h
    · exact Or.inr (Or.inl h)
  · rw [if_neg hcond] at hx
    cases dl with
    | some L =>
      dsimp only at hx
      by_cases hne2 : (!(sdfLoop gn gd gl defs fld ls (Smap.keys (fld.getD []))).2.2.isEmpty) = true
      · rw [if_pos hne2] at hx
        rcases (Lset.mem_insert_iff _).1 hx with h | h
        · exact Or.inr (Or.inr (by rw [h]))
        · rcases hloop x h with h2 | h2
          · exact Or.inl h2
          · exact Or.inr (Or.inl h2)
      · rw [if_neg hne2] at hx
        rcases hloop x hx with h | h
        · exact Or.inl h
        · exact Or.inr (Or.inl h)
    | none =>
      rcases hloop x hx with h | h
      · exact Or.inl h
      · exact Or.inr (Or.inl h)

/-- With `remove_missing` unset, a kept undeclared stale artifact folds the
document's stored language into the accumulator. -/
theorem sdf_langs_fold (fld : Option (Smap α)) (defs : List δ) (ls : Lset)
    {L n : String} (hc : Smap.Canon (fld.getD []))
    (hk : n ∈ Smap.keys (fld.getD [])) (hn : ∀ d ∈ defs, gn d ≠ n) :
    L ∈ (_sync_dict_field gn gd gl fld defs false ls (some L)).2 := by
  have hmem : n ∈ (sdfLoop gn gd gl defs fld ls (Smap.keys (fld.getD []))).2.2 :=
    (sdf_missing_spec gn gd gl fld defs ls hc n).2 ⟨hk, hn⟩
  have hne : (!(sdfLoop gn gd gl defs fld ls (Smap.keys (fld.getD []))).2.2.isEmpty) = true := by
    cases hemp : (sdfLoop gn gd gl defs fld ls (Smap.keys (fld.getD []))).2.2 with
    | nil =>
      rw [hemp] at hmem
      cases hmem
    | cons a t => rfl
  simp only [_sync_dict_field, Bool.false_and, Bool.false_eq_true, if_false]
  rw [if_pos hne]
  exact (Lset.mem_insert_iff _).2 (Or.inl rfl)

theorem sdf_langs_canon (fld : Option (Smap α)) (defs : List δ) (rm : Bool) (ls : Lset)
    (dl : Option String) (hc : Lset.Canon ls) :
    Lset.Canon (_sync_dict_field gn gd gl fld defs rm ls dl).2 := by
  have hloop : Lset.Canon (sdfLoop gn gd gl defs fld ls (Smap.keys (fld.getD []))).2.1 := by
    rw [sdfLoop_langs]
    exact foldl_insert_canon gl defs ls hc
  simp only [_sync_dict_field]
  by_cases hcond : (rm && !(sdfLoop gn gd gl defs fld ls (Smap.keys (fld.getD []))).2.2.isEmpty) = true
  · rw [if_pos hcond]
    exact hloop
  · rw [if_neg hcond]
    cases dl with
    | some L =>
      dsimp only
      by_cases hne2 : (!(sdfLoop gn gd gl defs fld ls (Smap.keys (fld.getD []))).2.2.isEmpty) = true
      · rw [if_pos hne2]
        exact Lset.Canon.lset_insert L hloop
      · rw [if_neg hne2]
        exact hloop
    | none => exact hloop

end SdfMain

/-! ### Lemmas: the validator merge step -/

theorem vsf_ok_len {cur : Option String} {defs : List ValidateFunctionDefinition} {rm : Bool}
    {ls : Lset} {dl : Option String} {rvd : Option String × Lset}
    (h : validate_sync_field cur defs rm ls dl = Except.ok rvd) : defs.length ≤ 1 := by
  cases defs with
  | nil => simp
  | cons v t =>
    cases t with
    | nil => simp
    | cons v2 t2 =>
      simp only [validate_sync_field] at h
      cases h

theorem vsf_ok_inv {cur : Option String} {defs : List ValidateFunctionDefinition} {rm : Bool}
    {ls : Lset} {dl : Option String} {rvd : Option String × Lset}
    (h : validate_sync_field cur defs rm ls dl = Except.ok rvd) :
    (defs = [] ∧ rvd.1 = cur) ∨ (∃ v, defs = [v] ∧ rvd.1 = some v.func) := by
  cases defs with
  | nil =>
    left
    refine ⟨rfl, ?_⟩
    simp only [validate_sync_field] at h
    by_cases hc : (!rm && cur.isSome) = true
    · rw [if_pos hc] at h
      cases dl with
      | some L =>
        dsimp only at h
        injection h with h2
        rw [← h2]
      | none =>
        dsimp only at h
        injection h with h2
        rw [← h2]
    · rw [if_neg hc] at h
      injection h with h2
      rw [← h2]
  | cons v t =>
    cases t with
    | nil =>
      right
      refine ⟨v, rfl, ?_⟩
      simp only [validate_sync_field] at h
      injection h with h2
      rw [← h2]
    | cons v2 t2 =>
      simp only [validate_sync_field] at h
      cases h

theorem vsf_langs_mono {cur : Option String} {defs : List ValidateFunctionDefinition} {rm : Bool}
    {ls : Lset} {dl : Option String} {rvd : Option String × Lset}
    (h : validate_sync_field cur defs rm ls dl = Except.ok rvd) {x : String} (hx : x ∈ ls) :
    x ∈ rvd.2 := by
  cases defs with
  | nil =>
    simp only [validate_sync_field] at h
    by_cases hc : (!rm && cur.isSome) = true
    · rw [if_pos hc] at h
      cases dl with
      | some L =>
        dsimp only at h
        injection h with h2
        rw [← h2]
        exact (Lset.mem_insert_iff _).2 (Or.inr hx)
      | none =>
        dsimp only at h
        injection h with h2
        rw [← h2]
        exact hx
    · rw [if_neg hc] at h
      injection h with h2
      rw [← h2]
      exact hx
  | cons v t =>
    cases t with
    | nil =>
      simp only [validate_sync_field] at h
      injection h with h2
      rw [← h2]
      exact (Lset.mem_insert_iff _).2 (Or.inr hx)
    | cons v2 t2 =>
      simp only [validate_sync_field] at h
      cases h

theorem vsf_langs_of_def {cur : Option String} {defs : List ValidateFunctionDefinition}
    {rm : Bool} {ls : Lset} {dl : Option String} {rvd : Option String × Lset}
    (h : validate_sync_field cur defs rm ls dl = Except.ok rvd)
    {v : ValidateFunctionDefinition} (hv : v ∈ defs) : v.language ∈ rvd.2 := by
  cases defs with
  | nil => cases hv
  | cons v1 t =>
    cases t with
    | nil =>
      simp only [validate_sync_field] at h
      injection h with h2
      rw [← h2]
      rw [List.mem_singleton] at hv
      subst hv
      exact (Lset.mem_insert_iff _).2 (Or.inl rfl)
    | cons v2 t2 =>
      simp only [validate_sync_field] at h
      cases h

theorem vsf_langs_subset {cur : Option String} {defs : List ValidateFunctionDefinition}
    {rm : Bool} {ls : Lset} {dl : Option String} {rvd : Option String × Lset}
    (h : validate_sync_field cur defs rm ls dl = Except.ok rvd) {x : String} (hx : x ∈ rvd.2) :
    x ∈ ls ∨ (∃ v ∈ defs, v.language = x) ∨ dl = some x := by
  cases defs with
  | nil =>
    simp only [validate_sync_field] at h
    by_cases hc : (!rm && cur.isSome) = true
    · rw [if_pos hc] at h
      cases dl with
      | some L =>
        dsimp only at h
        injection h with h2
        rw [← h2] at hx
        rcases (Lset.mem_insert_iff _).1 hx with hh | hh
        · exact Or.inr (Or.inr (by rw [hh]))
        · exact Or.inl hh
      | none =>
        dsimp only at h
        injection h with h2
        rw [← h2] at hx
        exact Or.inl hx
    · rw [if_neg hc] at h
      injection h with h2
      rw [← h2] at hx
      exact Or.inl hx
  | cons v t =>
    cases t with
    | nil =>
      simp only [validate_sync_field] at h
      injection h with h2
      rw [← h2] at hx
      rcases (Lset.mem_insert_iff _).1 hx with hh | hh
      · exact Or.inr (Or.inl ⟨v, List.mem_singleton_self v, hh.symm⟩)
      · exact Or.inl hh
    | cons v2 t2 =>
      simp only [validate_sync_field] at h
      cases h

theorem vsf_langs_canon {cur : Option String} {defs : List ValidateFunctionDefinition}
    {rm : Bool} {ls : Lset} {dl : Option String} {rvd : Option String × Lset}
    (h : validate_sync_field cur defs rm ls dl = Except.ok rvd) (hc : Lset.Canon ls) :
    Lset.Canon rvd.2 := by
  cases defs with
  | nil =>
    simp only [validate_sync_field] at h
    by_cases hcc : (!rm && cur.isSome) = true
    · rw [if_pos hcc] at h
      cases dl with
      | some L =>
        dsimp only at h
        injection h with h2
        rw [← h2]
        exact Lset.Canon.lset_insert L hc
      | none =>
        dsimp only at h
        injection h with h2
        rw [← h2]
        exact hc
    · rw [if_neg hcc] at h
      injection h with h2
      rw [← h2]
      exact hc
  | cons v t =>
    cases t with
    | nil =>
      simp only [validate_sync_field] at h
      injection h with h2
      rw [← h2]
      exact Lset.Canon.lset_insert v.language hc
    | cons v2 t2 =>
      simp only [validate_sync_field] at h
      cases h

/-- Re-running the validator merge on its own output keeps the field. -/
theorem vsf_again {cur : Option String} {defs : List ValidateFunctionDefinition} {rm : Bool}
    {ls : Lset} {dl : Option String} {rvd : Option String × Lset}
    (h : validate_sync_field cur defs rm ls dl = Except.ok rvd)
    (ls2 : Lset) (dl2 : Option String) :
    ∃ ls3, validate_sync_field rvd.1 defs rm ls2 dl2 = Except.ok (rvd.1, ls3) := by
  rcases vsf_ok_inv h with ⟨hdefs, hfst⟩ | ⟨v, hdefs, hfst⟩
  · subst hdefs
    simp only [validate_sync_field]
    by_cases hc : (!rm && (rvd.1).isSome) = true
    · rw [if_pos hc]
      cases dl2 with
      | some L => exact ⟨_, rfl⟩
      | none => exact ⟨_, rfl⟩
    · rw [if_neg hc]
      exact ⟨_, rfl⟩
  · subst hdefs
    simp only [validate_sync_field]
    rw [hfst]
    exact ⟨_, rfl⟩

/-! ### Lemmas: `_sync_doc` -/

/-- Canonicity of a document's mapping fields. -/
def Doc.IsCanon (d : Doc) : Prop :=
  Smap.Canon (d.views.getD []) ∧ Smap.Canon (d.updates.getD []) ∧ Smap.Canon (d.shows.getD [])

theorem Smap.lookup_mem {α : Type} {k : String} {v : α} :
    ∀ {m : Smap α}, Smap.lookup k m = some v → (k, v) ∈ m
  | [], h => by cases h
  | (k1, v1) :: t, h => by
    simp only [Smap.lookup] at h
    split_ifs at h with h1
    · injection h with h2
      subst h1
      subst h2
      exact List.mem_cons_self _ t
    · exact List.mem_cons_of_mem _ (Smap.lookup_mem h)

/-- Canonical optional maps with matching absence and lookups are equal. -/
theorem option_smap_ext {α : Type} {o1 o2 : Option (Smap α)}
    (h1 : Smap.Canon (o1.getD [])) (h2 : Smap.Canon (o2.getD []))
    (hnone : o1 = none ↔ o2 = none)
    (hl : ∀ k, Smap.lookup k (o1.getD []) = Smap.lookup k (o2.getD [])) : o1 = o2 := by
  cases o1 with
  | none =>
    cases o2 with
    | none => rfl
    | some m2 =>
      cases hnone.1 rfl
  | some m1 =>
    cases o2 with
    | none =>
      cases hnone.2 rfl
    | some m2 =>
      exact congrArg some (Smap.Canon.ext h1 h2 hl)

theorem dd_total_cases {dd : DesignDocRecords} (h : 0 < dd.total) :
    dd.views ≠ [] ∨ dd.update_handlers ≠ [] ∨ dd.validate_functions ≠ [] ∨
      dd.show_functions ≠ [] := by
  by_contra hall
  push_neg at hall
  obtain ⟨h1, h2, h3, h4⟩ := hall
  unfold DesignDocRecords.total at h
  rw [h1, h2, h3, h4] at h
  simp at h

theorem sync_doc_ok_inv {dd : DesignDocRecords} {doc : Doc} {rm : Bool} {doc2 : Doc}
    (h : _sync_doc dd doc rm = Except.ok doc2) :
    ∃ rvd l, syncValidate dd doc rm = Except.ok rvd ∧
      (syncShows dd doc rm rvd).2 = [l] ∧
      doc2 = { doc with views := (syncViews dd doc rm).1
                        updates := (syncUpdates dd doc rm).1
                        shows := (syncShows dd doc rm rvd).1
                        validate_doc_update := rvd.1
                        language := some l } := by
  unfold _sync_doc at h
  cases hv : syncValidate dd doc rm with
  | error e =>
    rw [hv] at h
    cases h
  | ok rvd =>
    rw [hv] at h
    dsimp only at h
    by_cases hlen : 1 < (syncShows dd doc rm rvd).2.length
    · rw [if_pos hlen] at h
      cases h
    · rw [if_neg hlen] at h
      cases hls : (syncShows dd doc rm rvd).2 with
      | nil =>
        rw [hls] at h
        cases h
      | cons l rest =>
        rw [hls] at h
        dsimp only at h
        have hrest : rest = [] := by
          rw [hls] at hlen
          cases rest with
          | nil => rfl
          | cons a t =>
            exfalso
            apply hlen
            simp only [List.length_cons]
            omega
        refine ⟨rvd, l, rfl, by rw [hls, hrest], ?_⟩
        injection h with h2
        exact h2.symm

theorem sync_doc_ok_canon {dd : DesignDocRecords} {doc : Doc} {rm : Bool} {doc2 : Doc}
    (hdc : Doc.IsCanon doc) (h : _sync_doc dd doc rm = Except.ok doc2) :
    Doc.IsCanon doc2 := by
  obtain ⟨rvd, l, hv, hls, rfl⟩ := sync_doc_ok_inv h
  refine ⟨?_, ?_, ?_⟩
  · exact sdf_fst_canon _ _ _ doc.views dd.views rm [] doc.language hdc.1
  · exact sdf_fst_canon _ _ _ doc.updates dd.update_handlers rm
      (syncViews dd doc rm).2 doc.language hdc.2.1
  · exact sdf_fst_canon _ _ _ doc.shows dd.show_functions rm rvd.2 doc.language hdc.2.2

theorem sync_doc_ok_id_rev {dd : DesignDocRecords} {doc : Doc} {rm : Bool} {doc2 : Doc}
    (h : _sync_doc dd doc rm = Except.ok doc2) :
    doc2.docId = doc.docId ∧ doc2.rev = doc.rev := by
  obtain ⟨rvd, l, hv, hls, rfl⟩ := sync_doc_ok_inv h
  exact ⟨rfl, rfl⟩

/-- On success the document's language is the single accumulated language, and
every supplied record declared exactly that language. -/
theorem sync_doc_ok_langs {dd : DesignDocRecords} {doc : Doc} {rm : Bool} {doc2 : Doc}
    (h : _sync_doc dd doc rm = Except.ok doc2) :
    ∃ l, doc2.language = some l ∧
      (∀ v ∈ dd.views, v.language = l) ∧
      (∀ u ∈ dd.update_handlers, u.language = l) ∧
      (∀ f ∈ dd.validate_functions, f.language = l) ∧
      (∀ sf ∈ dd.show_functions, sf.language = l) := by
  obtain ⟨rvd, l, hv, hls, rfl⟩ := sync_doc_ok_inv h
  have chain : ∀ x : String, x ∈ (syncViews dd doc rm).2 → x ∈ (syncShows dd doc rm rvd).2 := by
    intro x hx
    have h2 : x ∈ (syncUpdates dd doc rm).2 :=
      sdf_langs_mono _ _ _ doc.updates dd.update_handlers rm _ doc.language hx
    have h3 : x ∈ rvd.2 := vsf_langs_mono hv h2
    exact sdf_langs_mono _ _ _ doc.shows dd.show_functions rm _ doc.language h3
  refine ⟨l, rfl, ?_, ?_, ?_, ?_⟩
  · intro v hv2
    have h1 : v.language ∈ (syncViews dd doc rm).2 :=
      sdf_langs_of_def _ _ _ doc.views dd.views rm [] doc.language hv2
    have h4 := chain _ h1
    rw [hls, List.mem_singleton] at h4
    exact h4
  · intro u hu
    have h2 : u.language ∈ (syncUpdates dd doc rm).2 :=
      sdf_langs_of_def _ _ _ doc.updates dd.update_handlers rm _ doc.language hu
    have h3 : u.language ∈ rvd.2 := vsf_langs_mono hv h2
    have h4 : u.language ∈ (syncShows dd doc rm rvd).2 :=
      sdf_langs_mono _ _ _ doc.shows dd.show_functions rm _ doc.language h3
    rw [hls, List.mem_singleton] at h4
    exact h4
  · intro f hf
    have h3 : f.language ∈ rvd.2 := vsf_langs_of_def hv hf
    have h4 : f.language ∈ (syncShows dd doc rm rvd).2 :=
      sdf_langs_mono _ _ _ doc.shows dd.show_functions rm _ doc.language h3
    rw [hls, List.mem_singleton] at h4
    exact h4
  · intro sf hsf
    have h4 : sf.language ∈ (syncShows dd doc rm rvd).2 :=
      sdf_langs_of_def _ _ _ doc.shows dd.show_functions rm _ doc.language hsf
    rw [hls, List.mem_singleton] at h4
    exact h4

/-- `_sync_doc` never reads or writes the revision token. -/
theorem sync_doc_rev (dd : DesignDocRecords) (doc : Doc) (rm : Bool) (r : Option String) :
    _sync_doc dd { doc with rev := r } rm =
      Except.map (fun d => { d with rev := r }) (_sync_doc dd doc rm) := by
  unfold _sync_doc
  have hv : syncValidate dd { doc with rev := r } rm = syncValidate dd doc rm := rfl
  rw [hv]
  cases hval : syncValidate dd doc rm with
  | error e => rfl
  | ok rvd =>
    dsimp only
    have hs : syncShows dd { doc with rev := r } rm rvd = syncShows dd doc rm rvd := rfl
    rw [hs]
    by_cases hlen : 1 < (syncShows dd doc rm rvd).2.length
    · rw [if_pos hlen, if_pos hlen]
      rfl
    · rw [if_neg hlen, if_neg hlen]
      cases hls : (syncShows dd doc rm rvd).2 with
      | nil => rfl
      | cons l rest => rfl

/-- Re-merging a kind's records into the field they just produced leaves the
field unchanged. -/
theorem sdf_idem_fst {δ α : Type} (gn : δ → String) (gd : δ → α) (gl : δ → String)
    (fld : Option (Smap α)) (defs : List δ) (rm : Bool) (ls ls2 : Lset)
    (dl dl2 : Option String) (hc : Smap.Canon (fld.getD [])) :
    (_sync_dict_field gn gd gl (_sync_dict_field gn gd gl fld defs rm ls dl).1
        defs rm ls2 dl2).1 =
      (_sync_dict_field gn gd gl fld defs rm ls dl).1 := by
  have hc1 : Smap.Canon ((_sync_dict_field gn gd gl fld defs rm ls dl).1.getD []) :=
    sdf_fst_canon gn gd gl fld defs rm ls dl hc
  refine option_smap_ext (sdf_fst_canon gn gd gl _ defs rm ls2 dl2 hc1) hc1 ?_ ?_
  · rw [sdf_fst_none_iff, sdf_fst_none_iff]
    tauto
  · intro n
    rw [sdf_fst_lookup gn gd gl _ defs rm ls2 dl2 hc1 n]
    cases hlast : lastMatch gn n defs with
    | some d =>
      rw [sdf_fst_lookup gn gd gl fld defs rm ls dl hc n, hlast]
    | none =>
      cases hrm : rm with
      | true =>
        rw [sdf_fst_lookup gn gd gl fld defs true ls dl hc n, hlast]
        simp
      | false => simp

/-- Re-running `_sync_doc` on a successfully merged document changes nothing. -/
theorem sync_doc_idem {dd : DesignDocRecords} {doc : Doc} {rm : Bool} {doc2 : Doc}
    (hdc : Doc.IsCanon doc) (hne : 0 < dd.total)
    (h : _sync_doc dd doc rm = Except.ok doc2) :
    _sync_doc dd doc2 rm = Except.ok doc2 := by
  obtain ⟨rvd, l, hv, hls, hdoc2⟩ := sync_doc_ok_inv h
  obtain ⟨l2, hl2, hvl, hul, hfl, hsl⟩ := sync_doc_ok_langs h
  have hll : l2 = l := by
    rw [hdoc2] at hl2
    dsimp only at hl2
    injection hl2 with hh
    exact hh.symm
  subst hll
  have hRv : doc2.views = (syncViews dd doc rm).1 := by rw [hdoc2]
  have hRu : doc2.updates = (syncUpdates dd doc rm).1 := by rw [hdoc2]
  have hRs : doc2.shows = (syncShows dd doc rm rvd).1 := by rw [hdoc2]
  have hRvd : doc2.validate_doc_update = rvd.1 := by rw [hdoc2]
  have hRl : doc2.language = some l2 := by rw [hdoc2]
  -- run-2 mapping fields are unchanged
  have hviews2 : (syncViews dd doc2 rm).1 = doc2.views := by
    unfold syncViews
    rw [hRv]
    exact sdf_idem_fst _ _ _ doc.views dd.views rm [] [] doc.language doc2.language hdc.1
  have hupdates2 : (syncUpdates dd doc2 rm).1 = doc2.updates := by
    unfold syncUpdates
    rw [hRu]
    exact sdf_idem_fst _ _ _ doc.updates dd.update_handlers rm
      (syncViews dd doc rm).2 (syncViews dd doc2 rm).2 doc.language doc2.language hdc.2.1
  -- run-2 validator keeps the field
  obtain ⟨ls3, hvsf2⟩ := vsf_again hv (syncUpdates dd doc2 rm).2 doc2.language
  have hv2 : syncValidate dd doc2 rm = Except.ok (rvd.1, ls3) := by
    unfold syncValidate
    rw [hRvd]
    exact hvsf2
  have hshows2 : (syncShows dd doc2 rm (rvd.1, ls3)).1 = doc2.shows := by
    unfold syncShows
    rw [hRs]
    exact sdf_idem_fst _ _ _ doc.shows dd.show_functions rm rvd.2 ls3
      doc.language doc2.language hdc.2.2
  -- the run-2 language set is exactly the single language again
  have hmem : l2 ∈ (syncShows dd doc2 rm (rvd.1, ls3)).2 := by
    have hchain : ∀ x : String, x ∈ (syncUpdates dd doc2 rm).2 →
        x ∈ (syncShows dd doc2 rm (rvd.1, ls3)).2 := by
      intro x hx
      have h3 : x ∈ ls3 := by
        have := vsf_langs_mono hvsf2 hx
        exact this
      exact sdf_langs_mono _ _ _ doc2.shows dd.show_functions rm _ doc2.language h3
    rcases dd_total_cases hne with hk | hk | hk | hk
    · obtain ⟨v, hvmem⟩ := List.exists_mem_of_ne_nil _ hk
      have h1 : v.language ∈ (syncViews dd doc2 rm).2 :=
        sdf_langs_of_def _ _ _ doc2.views dd.views rm [] doc2.language hvmem
      have h2 : v.language ∈ (syncUpdates dd doc2 rm).2 :=
        sdf_langs_mono _ _ _ doc2.updates dd.update_handlers rm _ doc2.language h1
      rw [hvl v hvmem] at h2
      exact hchain _ h2
    · obtain ⟨u, humem⟩ := List.exists_mem_of_ne_nil _ hk
      have h2 : u.language ∈ (syncUpdates dd doc2 rm).2 :=
        sdf_langs_of_def _ _ _ doc2.updates dd.update_handlers rm _ doc2.language humem
      rw [hul u humem] at h2
      exact hchain _ h2
    · obtain ⟨f, hfmem⟩ := List.exists_mem_of_ne_nil _ hk
      have h3 : f.language ∈ ls3 := by
        have := vsf_langs_of_def hvsf2 hfmem
        exact this
      rw [hfl f hfmem] at h3
      exact sdf_langs_mono _ _ _ doc2.shows dd.show_functions rm _ doc2.language h3
    · obtain ⟨sf, hsmem⟩ := List.exists_mem_of_ne_nil _ hk
      have h4 : sf.language ∈ (syncShows dd doc2 rm (rvd.1, ls3)).2 :=
        sdf_langs_of_def _ _ _ doc2.shows dd.show_functions rm _ doc2.language hsmem
      rw [hsl sf hsmem] at h4
      exact h4
  have hall : ∀ x ∈ (syncShows dd doc2 rm (rvd.1, ls3)).2, x = l2 := by
    intro x hx
    rcases sdf_langs_subset _ _ _ doc2.shows dd.show_functions rm _ doc2.language hx
      with h3 | h3 | h3
    · rcases vsf_langs_subset hvsf2 h3 with h4 | h4 | h4
      · rcases sdf_langs_subset _ _ _ doc2.updates dd.update_handlers rm _ doc2.language h4
          with h5 | h5 | h5
        · rcases sdf_langs_subset _ _ _ doc2.views dd.views rm [] doc2.language h5
            with h6 | h6 | h6
          · cases h6
          · obtain ⟨v, hvm, hveq⟩ := h6
            rw [← hveq]
            exact hvl v hvm
          · rw [hRl] at h6
            injection h6 with h7
            exact h7.symm
        · obtain ⟨u, hum, hueq⟩ := h5
          rw [← hueq]
          exact hul u hum
        · rw [hRl] at h5
          injection h5 with h7
          exact h7.symm
      · obtain ⟨f, hfm, hfeq⟩ := h4
        rw [← hfeq]
        exact hfl f hfm
      · rw [hRl] at h4
        injection h4 with h7
        exact h7.symm
    · obtain ⟨sf, hsm, hseq⟩ := h3
      rw [← hseq]
      exact hsl sf hsm
    · rw [hRl] at h3
      injection h3 with h7
      exact h7.symm
  have hcanon4 : Lset.Canon (syncShows dd doc2 rm (rvd.1, ls3)).2 := by
    have hc0 : Lset.Canon ([] : Lset) := List.chain'_nil
    have hc1 : Lset.Canon (syncViews dd doc2 rm).2 :=
      sdf_langs_canon _ _ _ doc2.views dd.views rm [] doc2.language hc0
    have hc2 : Lset.Canon (syncUpdates dd doc2 rm).2 :=
      sdf_langs_canon _ _ _ doc2.updates dd.update_handlers rm _ doc2.language hc1
    have hc3 : Lset.Canon ls3 := by
      have := vsf_langs_canon hvsf2 hc2
      exact this
    exact sdf_langs_canon _ _ _ doc2.shows dd.show_functions rm _ doc2.language hc3
  have hsingle : (syncShows dd doc2 rm (rvd.1, ls3)).2 = [l2] :=
    eq_singleton_of_all_eq _ (fun he => by rw [he] at hmem; cases hmem) hall hcanon4.nodup
  -- assemble
  unfold _sync_doc
  rw [hv2]
  dsimp only
  rw [hsingle]
  rw [if_neg (by simp)]
  dsimp only
  rw [hviews2, hupdates2, hshows2, ← hRvd, ← hRl]

/-! ### Lemmas: sorting and grouping -/

/-- The sort relation used by `sync_definitions`. -/
abbrev designLe (a b : Defn) : Prop := strLeB a.design b.design = true

theorem sortDefs_sorted (defs : List Defn) : (sortDefs defs).Pairwise designLe := by
  haveI : IsTotal Defn designLe := ⟨fun a b => strLeB_total _ _⟩
  haveI : IsTrans Defn designLe := ⟨fun a b c => strLeB_trans⟩
  exact List.sorted_insertionSort designLe defs

theorem sortDefs_perm (defs : List Defn) : (sortDefs defs).Perm defs :=
  List.perm_insertionSort designLe defs

/-- Ordered insertion commutes with filtering by an exact design name (this is
where stability of the sort matters: records moved past always have a strictly
smaller design name, hence a different one). -/
theorem filter_orderedInsert (d : String) (x : Defn) :
    ∀ l : List Defn,
      (List.orderedInsert designLe x l).filter (fun a => a.design == d) =
        (if x.design == d then x :: l.filter (fun a => a.design == d)
         else l.filter (fun a => a.design == d))
  | [] => by
    simp only [List.orderedInsert, List.filter]
    cases hx : x.design == d <;> simp
  | y :: l => by
    simp only [List.orderedInsert]
    by_cases hr : designLe x y
    · rw [if_pos hr, List.filter_cons]
    · rw [if_neg hr]
      rw [List.filter_cons, filter_orderedInsert d x l, List.filter_cons]
      have hlt : strLtB y.design x.design = true := by
        cases hlt : strLtB y.design x.design with
        | true => rfl
        | false =>
          exact absurd (by unfold designLe strLeB; rw [hlt]; rfl) hr
      by_cases hx : x.design = d
      · have hyne : ¬ y.design = d := by
          intro he
          rw [he, hx, strLtB_irrefl] at hlt
          cases hlt
        simp [beq_iff_eq, hx, hyne]
      · simp [beq_iff_eq, hx]

theorem filter_sortDefs (d : String) (defs : List Defn) :
    (sortDefs defs).filter (fun a => a.design == d) =
      defs.filter (fun a => a.design == d) := by
  induction defs with
  | nil => rfl
  | cons x l ih =>
    show (List.orderedInsert designLe x (sortDefs l)).filter (fun a => a.design == d) = _
    rw [filter_orderedInsert d x (sortDefs l), List.filter_cons, ih]

section GroupRunsLemmas

variable {α : Type} (key : α → String)

theorem groupRuns_nil_iff : ∀ l : List α, groupRuns key l = [] ↔ l = []
  | [] => by simp [groupRuns]
  | x :: xs => by
    simp only [groupRuns]
    cases h : groupRuns key xs with
    | nil => simp
    | cons p rest =>
      rcases p with ⟨k, g⟩
      dsimp only
      by_cases he : key x = k
      · rw [if_pos he]
        simp
      · rw [if_neg he]
        simp

theorem groupRuns_cons_head (x : α) (xs : List α) :
    ∃ g rest, groupRuns key (x :: xs) = (key x, g) :: rest := by
  simp only [groupRuns]
  cases h : groupRuns key xs with
  | nil => exact ⟨[x], [], rfl⟩
  | cons p rest =>
    rcases p with ⟨k, g⟩
    dsimp only
    by_cases he : key x = k
    · rw [if_pos he]
      exact ⟨x :: g, rest, by rw [he]⟩
    · rw [if_neg he]
      exact ⟨[x], (k, g) :: rest, rfl⟩

/-- The full characterization of `groupby` on a name-sorted list: each emitted
group holds exactly the (non-empty) run of records with its key, in order, and
the emitted keys are the distinct keys of the input. -/
theorem groupRuns_spec :
    ∀ l : List α, l.Pairwise (fun a b => strLeB (key a) (key b) = true) →
      (∀ p ∈ groupRuns key l, p.2 = l.filter (fun a => key a == p.1) ∧ p.2 ≠ []) ∧
      ((groupRuns key l).map Prod.fst).Nodup ∧
      (∀ d, d ∈ (groupRuns key l).map Prod.fst ↔ d ∈ l.map key)
  | [], _ => by simp [groupRuns]
  | x :: xs, hs => by
    rw [List.pairwise_cons] at hs
    obtain ⟨hx, hxs⟩ := hs
    obtain ⟨iha, ihb, ihc⟩ := groupRuns_spec xs hxs
    simp only [groupRuns]
    cases h : groupRuns key xs with
    | nil =>
      have hxs0 : xs = [] := (groupRuns_nil_iff key xs).1 h
      subst hxs0
      refine ⟨?_, by simp, ?_⟩
      · intro p hp
        rw [List.mem_singleton] at hp
        subst hp
        simp
      · intro d
        simp
    | cons p rest =>
      rcases p with ⟨k, g⟩
      dsimp only
      have hxs_ne : xs ≠ [] := by
        intro hh
        rw [hh] at h
        simp [groupRuns] at h
      obtain ⟨hd, tl, hxseq⟩ := List.exists_cons_of_ne_nil hxs_ne
      have hk : k = key hd := by
        obtain ⟨g2, rest2, hh⟩ := groupRuns_cons_head key hd tl
        rw [← hxseq] at hh
        rw [h] at hh
        injection hh with h1 h2
        exact congrArg Prod.fst h1
      rw [h] at iha ihb ihc
      have ihb2 : k ∉ rest.map Prod.fst ∧ (rest.map Prod.fst).Nodup := by
        simpa [List.map_cons, List.nodup_cons] using ihb
      by_cases he : key x = k
      · rw [if_pos he]
        refine ⟨?_, ?_, ?_⟩
        · intro p hp
          rw [List.mem_cons] at hp
          rcases hp with hp | hp
          · subst hp
            have hg := iha (k, g) (List.mem_cons_self _ _)
            dsimp only at hg ⊢
            refine ⟨?_, by simp⟩
            rw [List.filter_cons, if_pos (by simp [he]), hg.1]
          · have hg := iha p (List.mem_cons_of_mem _ hp)
            have hkne : p.1 ≠ k := by
              intro hh
              apply ihb2.1
              rw [← hh]
              exact List.mem_map_of_mem Prod.fst hp
            refine ⟨?_, hg.2⟩
            rw [List.filter_cons,
              if_neg (by simp only [beq_iff_eq, he]; exact fun hh => hkne hh.symm), hg.1]
        · exact ihb
        · intro d
          have ihc2 := ihc d
          simp only [List.map_cons, List.mem_cons] at ihc2 ⊢
          constructor
          · intro hd2
            rcases hd2 with hd2 | hd2
            · exact Or.inl (hd2.trans he.symm)
            · exact Or.inr (ihc2.1 (Or.inr hd2))
          · intro hd2
            rcases hd2 with hd2 | hd2
            · exact Or.inl (hd2.trans he)
            · rcases ihc2.2 hd2 with hd3 | hd3
              · exact Or.inl hd3
              · exact Or.inr hd3
      · rw [if_neg he]
        have hnotin : ∀ y ∈ xs, key y ≠ key x := by
          intro y hy he2
          have h1 : strLeB (key x) k = true := by
            rw [hk]
            exact hx hd (by rw [hxseq]; exact List.mem_cons_self _ _)
          rcases List.mem_cons.1 (hxseq ▸ hy) with hy2 | hy2
          · subst hy2
            rw [hk] at he
            exact he (he2.symm ▸ rfl)
          · rw [hxseq] at hxs
            rw [List.pairwise_cons] at hxs
            have h2 : strLeB (key hd) (key y) = true := hxs.1 y hy2
            rw [he2, ← hk] at h2
            exact he (strLeB_antisymm h2 h1).symm
        refine ⟨?_, ?_, ?_⟩
        · intro p hp
          rw [List.mem_cons] at hp
          rcases hp with hp | hp
          · subst hp
            dsimp only
            refine ⟨?_, by simp⟩
            rw [List.filter_cons, if_pos (by simp),
              List.filter_eq_nil_iff.mpr (by
                intro a ha
                simp only [beq_iff_eq]
                exact fun hh => hnotin a ha hh)]
          · have hg := iha p hp
            have hpne : p.1 ≠ key x := by
              intro hh
              have hp1 : p.1 ∈ xs.map key := (ihc p.1).1 (List.mem_map_of_mem Prod.fst hp)
              rcases List.mem_map.1 hp1 with ⟨y, hy, hye⟩
              exact hnotin y hy (by rw [hye, hh])
            refine ⟨?_, hg.2⟩
            rw [List.filter_cons,
              if_neg (by simp only [beq_iff_eq]; exact fun hh => hpne hh.symm), hg.1]
        · rw [List.map_cons, List.nodup_cons]
          refine ⟨?_, ihb⟩
          intro hmem
          have hmk : key x ∈ xs.map key := (ihc (key x)).1 hmem
          rcases List.mem_map.1 hmk with ⟨y, hy, hye⟩
          exact hnotin y hy hye
        · intro d
          have ihc2 := ihc d
          simp only [List.map_cons, List.mem_cons] at ihc2 ⊢
          constructor
          · intro hd2
            rcases hd2 with hd2 | hd2
            · exact Or.inl hd2
            · exact Or.inr (ihc2.1 hd2)
          · intro hd2
            rcases hd2 with hd2 | hd2
            · exact Or.inl hd2
            · exact Or.inr (ihc2.2 hd2)

end GroupRunsLemmas

/-! ### Lemmas: `sync_many`, commit and the whole call -/

/-- The document id a group writes to. -/
def groupDocId (g : String × List Defn) : String :=
  "_design/" ++ stripDesignPrefix g.1

theorem design_prefix_inj {a b : String} (h : "_design/" ++ a = "_design/" ++ b) : a = b := by
  have hd := congrArg String.data h
  rw [String.data_append, String.data_append] at hd
  exact String.ext (List.append_cancel_left hd)

theorem from_definitions_go_design :
    ∀ (ds : List Defn) (acc acc2 : DesignDocRecords),
      from_definitions_go ds acc = Except.ok acc2 → acc2.design = acc.design
  | [], acc, acc2, h => by
    injection h with h2
    rw [← h2]
  | Defn.view v :: ds, acc, acc2, h => by
    simp only [from_definitions_go] at h
    exact from_definitions_go_design ds { acc with views := acc.views ++ [v] } acc2 h
  | Defn.update_handler u :: ds, acc, acc2, h => by
    simp only [from_definitions_go] at h
    exact from_definitions_go_design ds
      { acc with update_handlers := acc.update_handlers ++ [u] } acc2 h
  | Defn.validate_function f :: ds, acc, acc2, h => by
    simp only [from_definitions_go] at h
    exact from_definitions_go_design ds
      { acc with validate_functions := acc.validate_functions ++ [f] } acc2 h
  | Defn.show_function f :: ds, acc, acc2, h => by
    simp only [from_definitions_go] at h
    exact from_definitions_go_design ds
      { acc with show_functions := acc.show_functions ++ [f] } acc2 h
  | Defn.other d :: ds, acc, acc2, h => by cases h

theorem from_definitions_design {d : String} {gdefs : List Defn} {dd : DesignDocRecords}
    (h : from_definitions d gdefs = Except.ok dd) : dd.design = stripDesignPrefix d :=
  from_definitions_go_design gdefs _ dd h

theorem from_definitions_go_total :
    ∀ (ds : List Defn) (acc acc2 : DesignDocRecords),
      from_definitions_go ds acc = Except.ok acc2 → acc2.total = acc.total + ds.length
  | [], acc, acc2, h => by
    injection h with h2
    rw [← h2]
    simp
  | Defn.view v :: ds, acc, acc2, h => by
    simp only [from_definitions_go] at h
    have := from_definitions_go_total ds _ acc2 h
    rw [this]
    simp only [DesignDocRecords.total, List.length_append, List.length_cons]
    simp only [List.length_nil]
    omega
  | Defn.update_handler u :: ds, acc, acc2, h => by
    simp only [from_definitions_go] at h
    have := from_definitions_go_total ds _ acc2 h
    rw [this]
    simp only [DesignDocRecords.total, List.length_append, List.length_cons]
    simp only [List.length_nil]
    omega
  | Defn.validate_function f :: ds, acc, acc2, h => by
    simp only [from_definitions_go] at h
    have := from_definitions_go_total ds _ acc2 h
    rw [this]
    simp only [DesignDocRecords.total, List.length_append, List.length_cons]
    simp only [List.length_nil]
    omega
  | Defn.show_function f :: ds, acc, acc2, h => by
    simp only [from_definitions_go] at h
    have := from_definitions_go_total ds _ acc2 h
    rw [this]
    simp only [DesignDocRecords.total, List.length_append, List.length_cons]
    simp only [List.length_nil]
    omega
  | Defn.other d :: ds, acc, acc2, h => by cases h

theorem from_definitions_total {d : String} {gdefs : List Defn} {dd : DesignDocRecords}
    (h : from_definitions d gdefs = Except.ok dd) : dd.total = gdefs.length := by
  have := from_definitions_go_total gdefs _ dd h
  rw [this]
  simp [DesignDocRecords.total]

/-- A record of an unrecognized kind anywhere in the group fails the
classification with the `TypeError`. -/
theorem from_definitions_go_error :
    ∀ (ds : List Defn) (acc : DesignDocRecords), (∃ s, Defn.other s ∈ ds) →
      from_definitions_go ds acc = Except.error Err.unsupportedKind
  | [], acc, h => by
    obtain ⟨s, hs⟩ := h
    cases hs
  | Defn.view v :: ds, acc, h => by
    obtain ⟨s, hs⟩ := h
    rw [List.mem_cons] at hs
    rcases hs with hs | hs
    · cases hs
    · exact from_definitions_go_error ds _ ⟨s, hs⟩
  | Defn.update_handler u :: ds, acc, h => by
    obtain ⟨s, hs⟩ := h
    rw [List.mem_cons] at hs
    rcases hs with hs | hs
    · cases hs
    · exact from_definitions_go_error ds _ ⟨s, hs⟩
  | Defn.validate_function f :: ds, acc, h => by
    obtain ⟨s, hs⟩ := h
    rw [List.mem_cons] at hs
    rcases hs with hs | hs
    · cases hs
    · exact from_definitions_go_error ds _ ⟨s, hs⟩
  | Defn.show_function f :: ds, acc, h => by
    obtain ⟨s, hs⟩ := h
    rw [List.mem_cons] at hs
    rcases hs with hs | hs
    · cases hs
    · exact from_definitions_go_error ds _ ⟨s, hs⟩
  | Defn.other d :: ds, acc, h => rfl

theorem from_definitions_error_of_other {d : String} {gdefs : List Defn}
    (h : ∃ s, Defn.other s ∈ gdefs) :
    from_definitions d gdefs = Except.error Err.unsupportedKind :=
  from_definitions_go_error gdefs _ h

/-- A group that classifies and merges successfully against the store. -/
def groupOk (db : Store) (rm : Bool) (g : String × List Defn) : Prop :=
  ∃ dd newDoc, from_definitions g.1 g.2 = Except.ok dd ∧
    _sync_doc dd (db_get db ("_design/" ++ dd.design)) rm = Except.ok newDoc

theorem sync_many_go_cons_ok (db : Store) (rm : Bool) (d : String) (gdefs : List Defn)
    (rest : List (String × List Defn)) (log : List String) (docs : List Doc)
    {dd : DesignDocRecords} {newDoc : Doc}
    (hdd : from_definitions d gdefs = Except.ok dd)
    (hsync : _sync_doc dd (db_get db ("_design/" ++ dd.design)) rm = Except.ok newDoc) :
    sync_many_go db rm ((d, gdefs) :: rest) log docs =
      (if newDoc ≠ db_get db ("_design/" ++ dd.design)
       then sync_many_go db rm rest (log ++ ["_design/" ++ dd.design]) (docs ++ [newDoc])
       else sync_many_go db rm rest (log ++ ["_design/" ++ dd.design]) docs) := by
  simp only [sync_many_go]
  rw [hdd]
  dsimp only
  rw [hsync]

theorem sync_many_go_cons_error1 (db : Store) (rm : Bool) (d : String) (gdefs : List Defn)
    (rest : List (String × List Defn)) (log : List String) (docs : List Doc) {e : Err}
    (hdd : from_definitions d gdefs = Except.error e) :
    sync_many_go db rm ((d, gdefs) :: rest) log docs =
      { fetched := log, result := Except.error e } := by
  simp only [sync_many_go]
  rw [hdd]

theorem sync_many_go_cons_error2 (db : Store) (rm : Bool) (d : String) (gdefs : List Defn)
    (rest : List (String × List Defn)) (log : List String) (docs : List Doc)
    {dd : DesignDocRecords} {e : Err}
    (hdd : from_definitions d gdefs = Except.ok dd)
    (hsync : _sync_doc dd (db_get db ("_design/" ++ dd.design)) rm = Except.error e) :
    sync_many_go db rm ((d, gdefs) :: rest) log docs =
      { fetched := log ++ ["_design/" ++ dd.design], result := Except.error e } := by
  simp only [sync_many_go]
  rw [hdd]
  dsimp only
  rw [hsync]

/-- Successfully processed groups are consumed from the front of the loop,
fetching exactly their documents. -/
theorem sync_many_go_prefix (db : Store) (rm : Bool) :
    ∀ (pre rest : List (String × List Defn)) (log : List String) (docs : List Doc),
      (∀ g ∈ pre, groupOk db rm g) →
      ∃ docs2, sync_many_go db rm (pre ++ rest) log docs =
        sync_many_go db rm rest (log ++ pre.map groupDocId) docs2
  | [], rest, log, docs, _ => ⟨docs, by simp⟩
  | (d, gdefs) :: pre, rest, log, docs, hok => by
    obtain ⟨dd, newDoc, hdd, hsync⟩ := hok (d, gdefs) (List.mem_cons_self _ _)
    have hid : "_design/" ++ dd.design = groupDocId (d, gdefs) := by
      rw [from_definitions_design hdd]
      rfl
    rw [List.cons_append, sync_many_go_cons_ok db rm d gdefs (pre ++ rest) log docs hdd hsync]
    by_cases hch : newDoc ≠ db_get db ("_design/" ++ dd.design)
    · rw [if_pos hch]
      obtain ⟨docs2, hrec⟩ := sync_many_go_prefix db rm pre rest
        (log ++ ["_design/" ++ dd.design]) (docs ++ [newDoc])
        (fun g hg => hok g (List.mem_cons_of_mem _ hg))
      refine ⟨docs2, ?_⟩
      rw [hrec, hid]
      simp [List.append_assoc]
    · rw [if_neg hch]
      obtain ⟨docs2, hrec⟩ := sync_many_go_prefix db rm pre rest
        (log ++ ["_design/" ++ dd.design]) docs
        (fun g hg => hok g (List.mem_cons_of_mem _ hg))
      refine ⟨docs2, ?_⟩
      rw [hrec, hid]
      simp [List.append_assoc]

/-- The changed document a group contributes, if any. -/
def changedDoc (db : Store) (rm : Bool) (g : String × List Defn) : Option Doc :=
  match from_definitions g.1 g.2 with
  | Except.error _ => none
  | Except.ok dd =>
    match _sync_doc dd (db_get db ("_design/" ++ dd.design)) rm with
    | Except.error _ => none
    | Except.ok newDoc =>
      if newDoc ≠ db_get db ("_design/" ++ dd.design) then some newDoc else none

/-- Inversion of a successful run: every group succeeded, and the changed
list is exactly the per-group changed documents in group order. -/
theorem sync_many_go_ok_inv (db : Store) (rm : Bool) :
    ∀ (groups : List (String × List Defn)) (log : List String) (docs out : List Doc),
      (sync_many_go db rm groups log docs).result = Except.ok out →
      (∀ g ∈ groups, groupOk db rm g) ∧
        out = docs ++ groups.filterMap (changedDoc db rm)
  | [], log, docs, out, h => by
    simp only [sync_many_go] at h
    injection h with h2
    exact ⟨fun g hg => absurd hg (List.not_mem_nil g), by rw [← h2]; simp⟩
  | (d, gdefs) :: groups, log, docs, out, h => by
    cases hdd : from_definitions d gdefs with
    | error e =>
      rw [sync_many_go_cons_error1 db rm d gdefs groups log docs hdd] at h
      cases h
    | ok dd =>
      cases hsync : _sync_doc dd (db_get db ("_design/" ++ dd.design)) rm with
      | error e =>
        rw [sync_many_go_cons_error2 db rm d gdefs groups log docs hdd hsync] at h
        cases h
      | ok newDoc =>
        rw [sync_many_go_cons_ok db rm d gdefs groups log docs hdd hsync] at h
        by_cases hch : newDoc ≠ db_get db ("_design/" ++ dd.design)
        · rw [if_pos hch] at h
          obtain ⟨hall, hout⟩ := sync_many_go_ok_inv db rm groups _ _ _ h
          refine ⟨?_, ?_⟩
          · intro g hg
            rw [List.mem_cons] at hg
            rcases hg with hg | hg
            · subst hg
              exact ⟨dd, newDoc, hdd, hsync⟩
            · exact hall g hg
          · rw [hout, List.filterMap_cons]
            simp only [changedDoc, hdd, hsync, if_pos hch]
            simp
        · rw [if_neg hch] at h
          obtain ⟨hall, hout⟩ := sync_many_go_ok_inv db rm groups _ _ _ h
          refine ⟨?_, ?_⟩
          · intro g hg
            rw [List.mem_cons] at hg
            rcases hg with hg | hg
            · subst hg
              exact ⟨dd, newDoc, hdd, hsync⟩
            · exact hall g hg
          · rw [hout, List.filterMap_cons]
            simp only [changedDoc, hdd, hsync, if_neg hch]

/-- A run in which every group merges to exactly the stored document marks
nothing for commit. -/
theorem sync_many_go_unchanged (db2 : Store) (rm : Bool) :
    ∀ (groups : List (String × List Defn)) (log : List String),
      (∀ g ∈ groups, ∃ dd, from_definitions g.1 g.2 = Except.ok dd ∧
        _sync_doc dd (db_get db2 ("_design/" ++ dd.design)) rm =
          Except.ok (db_get db2 ("_design/" ++ dd.design))) →
      (sync_many_go db2 rm groups log []).result = Except.ok []
  | [], log, _ => rfl
  | (d, gdefs) :: groups, log, hall => by
    obtain ⟨dd, hdd, hsync⟩ := hall (d, gdefs) (List.mem_cons_self _ _)
    rw [sync_many_go_cons_ok db2 rm d gdefs groups log [] hdd hsync]
    rw [if_neg (by simp)]
    exact sync_many_go_unchanged db2 rm groups _ (fun g hg => hall g (List.mem_cons_of_mem _ hg))

theorem applyCommit_lookup (nr : String → String) :
    ∀ (docs : List Doc) (db : Store) (id : String), (docs.map Doc.docId).Nodup →
      Smap.lookup id (applyCommit db docs nr) =
        (match docs.find? (fun d2 => d2.docId == id) with
         | some d2 => some { d2 with rev := some (nr id) }
         | none => Smap.lookup id db)
  | [], db, id, _ => rfl
  | d :: docs, db, id, hnd => by
    rw [List.map_cons, List.nodup_cons] at hnd
    have step : applyCommit db (d :: docs) nr =
        applyCommit (Smap.insert d.docId { d with rev := some (nr d.docId) } db) docs nr := rfl
    rw [step, applyCommit_lookup nr docs _ id hnd.2]
    by_cases hdid : d.docId = id
    · have hfnone : docs.find? (fun d2 => d2.docId == id) = none := by
        rw [List.find?_eq_none]
        intro x hx
        simp only [beq_iff_eq]
        intro hxe
        apply hnd.1
        rw [hdid, ← hxe]
        exact List.mem_map_of_mem Doc.docId hx
      rw [hfnone]
      have hfind : (d :: docs).find? (fun d2 => d2.docId == id) = some d := by
        rw [List.find?_cons]
        rw [show (d.docId == id) = true by simp [hdid]]
      rw [hfind]
      subst hdid
      rw [Smap.lookup_insert_self]
    · have hfind : (d :: docs).find? (fun d2 => d2.docId == id) =
          docs.find? (fun d2 => d2.docId == id) := by
        rw [List.find?_cons]
        rw [show (d.docId == id) = false by simp [hdid]]
      rw [hfind]
      cases hf : docs.find? (fun d2 => d2.docId == id) with
      | some d2 => rfl
      | none =>
        rw [Smap.lookup_insert_ne (fun hh => hdid hh.symm)]

/-- What this core requires of a real store: every stored document is filed
under its own id and has canonical mapping fields. -/
def StoreWf (db : Store) : Prop :=
  ∀ p ∈ db, (p.2).docId = p.1 ∧ Doc.IsCanon p.2

theorem db_get_wf {db : Store} {id : String} (h : StoreWf db) :
    (db_get db id).docId = id ∧ Doc.IsCanon (db_get db id) := by
  unfold db_get
  cases hl : Smap.lookup id db with
  | none =>
    exact ⟨rfl, List.chain'_nil, List.chain'_nil, List.chain'_nil⟩
  | some d2 => exact h (id, d2) (Smap.lookup_mem hl)

theorem eq_of_nodup_keys :
    ∀ (l : List (String × List Defn)), (l.map Prod.fst).Nodup →
      ∀ g g2, g ∈ l → g2 ∈ l → g.1 = g2.1 → g = g2
  | [], _, g, g2, hg, _, _ => absurd hg (List.not_mem_nil g)
  | p :: l, hnd, g, g2, hg, hg2, he => by
    rw [List.map_cons, List.nodup_cons] at hnd
    rw [List.mem_cons] at hg hg2
    rcases hg with hg | hg <;> rcases hg2 with hg2 | hg2
    · rw [hg, hg2]
    · subst hg
      exact absurd (by rw [he]; exact List.mem_map_of_mem Prod.fst hg2) hnd.1
    · subst hg2
      exact absurd (by rw [← he]; exact List.mem_map_of_mem Prod.fst hg) hnd.1
    · exact eq_of_nodup_keys l hnd.2 g g2 hg hg2 he

theorem filterMap_map_sublist (f : (String × List Defn) → Option Doc)
    (idOf : (String × List Defn) → String) :
    ∀ l : List (String × List Defn),
      (∀ b ∈ l, ∀ nd, f b = some nd → nd.docId = idOf b) →
      ((l.filterMap f).map Doc.docId).Sublist (l.map idOf)
  | [], _ => by simp
  | b :: l, h => by
    rw [List.filterMap_cons, List.map_cons]
    cases hf : f b with
    | none =>
      exact List.Sublist.cons _ (filterMap_map_sublist f idOf l
        (fun b2 hb2 => h b2 (List.mem_cons_of_mem _ hb2)))
    | some nd =>
      rw [List.map_cons, h b (List.mem_cons_self _ _) nd hf]
      exact List.Sublist.cons₂ _ (filterMap_map_sublist f idOf l
        (fun b2 hb2 => h b2 (List.mem_cons_of_mem _ hb2)))

theorem find?_unique_id :
    ∀ (docs : List Doc) (nd : Doc) (id : String), (docs.map Doc.docId).Nodup →
      nd ∈ docs → nd.docId = id →
      docs.find? (fun d2 => d2.docId == id) = some nd
  | [], nd, id, _, hmem, _ => absurd hmem (List.not_mem_nil nd)
  | d :: docs, nd, id, hnd, hmem, hid => by
    rw [List.map_cons, List.nodup_cons] at hnd
    rw [List.mem_cons] at hmem
    rcases hmem with hmem | hmem
    · subst hmem
      rw [List.find?_cons, show (nd.docId == id) = true by simp [hid]]
    · have hdne : d.docId ≠ id := by
        intro hh
        apply hnd.1
        rw [hh, ← hid]
        exact List.mem_map_of_mem Doc.docId hmem
      rw [List.find?_cons, show (d.docId == id) = false by simp [hdne]]
      exact find?_unique_id docs nd id hnd.2 hmem hid

theorem reconcile_result (db : Store) (defs : List Defn) (rm : Bool) (nr : String → String) :
    (reconcile db defs rm nr).result = (sync_definitions db defs rm).result := rfl

theorem reconcile_fetched (db : Store) (defs : List Defn) (rm : Bool) (nr : String → String) :
    (reconcile db defs rm nr).fetched = (sync_definitions db defs rm).fetched := rfl

theorem reconcile_ok_inv {db : Store} {defs : List Defn} {rm : Bool} {nr : String → String}
    {docs : List Doc} (h : (reconcile db defs rm nr).result = Except.ok docs) :
    (sync_definitions db defs rm).result = Except.ok docs ∧
      (reconcile db defs rm nr).store = applyCommit db docs nr := by
  rw [reconcile_result] at h
  refine ⟨h, ?_⟩
  show (match (sync_definitions db defs rm).result with
        | Except.ok docs => applyCommit db docs nr
        | Except.error _ => db) = applyCommit db docs nr
  rw [h]

theorem reconcile_error_inv {db : Store} {defs : List Defn} {rm : Bool} {nr : String → String}
    {e : Err} (h : (sync_definitions db defs rm).result = Except.error e) :
    (reconcile db defs rm nr).store = db ∧
      (reconcile db defs rm nr).result = Except.error e ∧
      (reconcile db defs rm nr).fetched = (sync_definitions db defs rm).fetched := by
  refine ⟨?_, by rw [reconcile_result]; exact h, rfl⟩
  show (match (sync_definitions db defs rm).result with
        | Except.ok docs => applyCommit db docs nr
        | Except.error _ => db) = db
  rw [h]

/-- The changed document of a group in the sorted run writes to the group's
own document id. -/
theorem changedDoc_docId {db : Store} {defs : List Defn} {rm : Bool}
    (hwf : StoreWf db)
    (hkeypfx : ∀ g ∈ groupList defs, stripDesignPrefix g.1 = g.1) :
    ∀ g ∈ groupList defs, ∀ nd, changedDoc db rm g = some nd →
      nd.docId = "_design/" ++ g.1 := by
  intro g hg nd hcd
  unfold changedDoc at hcd
  cases hdd : from_definitions g.1 g.2 with
  | error e =>
    rw [hdd] at hcd
    cases hcd
  | ok dd =>
    rw [hdd] at hcd
    dsimp only at hcd
    cases hsync : _sync_doc dd (db_get db ("_design/" ++ dd.design)) rm with
    | error e =>
      rw [hsync] at hcd
      dsimp only at hcd
      cases hcd
    | ok newDoc =>
      rw [hsync] at hcd
      dsimp only at hcd
      by_cases hch : newDoc ≠ db_get db ("_design/" ++ dd.design)
      · rw [if_pos hch] at hcd
        injection hcd with h2
        subst h2
        rw [(sync_doc_ok_id_rev hsync).1,
          (@db_get_wf db ("_design/" ++ dd.design) hwf).1,
          from_definitions_design hdd, hkeypfx g hg]
      · rw [if_neg hch] at hcd
        cases hcd
/-- The heart of idempotence: after a successful reconciliation and its
commit, every group of the same record set merges the freshly stored
document to itself. -/
theorem second_run_unchanged {db : Store} {defs : List Defn} {rm : Bool}
    {nr : String → String} {docs : List Doc}
    (hwf : StoreWf db)
    (hpfx : ∀ r ∈ defs, stripDesignPrefix (Defn.design r) = Defn.design r)
    (hsd : (sync_definitions db defs rm).result = Except.ok docs) :
    (sync_definitions (applyCommit db docs nr) defs rm).result = Except.ok [] := by
  obtain ⟨hallok, hdocs⟩ := sync_many_go_ok_inv db rm (groupList defs) [] [] docs hsd
  rw [List.nil_append] at hdocs
  have hsorted := sortDefs_sorted defs
  obtain ⟨hga, hgb, hgc⟩ := groupRuns_spec Defn.design (sortDefs defs) hsorted
  have hkeypfx : ∀ g ∈ groupList defs, stripDesignPrefix g.1 = g.1 := by
    intro g hg
    have hmem : g.1 ∈ (sortDefs defs).map Defn.design :=
      (hgc g.1).1 (List.mem_map_of_mem Prod.fst hg)
    rcases List.mem_map.1 hmem with ⟨r, hr, hre⟩
    rw [← hre]
    exact hpfx r ((sortDefs_perm defs).subset hr)
  have hchid := @changedDoc_docId db defs rm hwf hkeypfx
  have hids_nodup : (docs.map Doc.docId).Nodup := by
    rw [hdocs]
    have hsub := filterMap_map_sublist (changedDoc db rm) (fun g => "_design/" ++ g.1)
      (groupList defs) (fun g hg nd hnd => hchid g hg nd hnd)
    refine List.Nodup.sublist hsub ?_
    have hmapmap : (groupList defs).map (fun g => "_design/" ++ g.1) =
        ((groupList defs).map Prod.fst).map (fun s => "_design/" ++ s) := by
      rw [List.map_map]
      rfl
    rw [hmapmap]
    exact List.Nodup.map (fun a b hab => design_prefix_inj hab) hgb
  unfold sync_definitions
  apply sync_many_go_unchanged
  intro g hg
  obtain ⟨dd, newDoc, hdd, hsync⟩ := hallok g hg
  have hgne : g.2 ≠ [] := (hga g hg).2
  have htot : 0 < dd.total := by
    rw [from_definitions_total hdd]
    cases hq : g.2 with
    | nil => exact absurd hq hgne
    | cons a t => simp
  have hnd_id : newDoc.docId = "_design/" ++ dd.design := by
    rw [(sync_doc_ok_id_rev hsync).1]
    exact (@db_get_wf db ("_design/" ++ dd.design) hwf).1
  have hcanon := (@db_get_wf db ("_design/" ++ dd.design) hwf).2
  have hidem := sync_doc_idem hcanon htot hsync
  have hid_eq : "_design/" ++ dd.design = "_design/" ++ g.1 := by
    rw [from_definitions_design hdd, hkeypfx g hg]
  refine ⟨dd, hdd, ?_⟩
  have hlk := applyCommit_lookup nr docs db ("_design/" ++ dd.design) hids_nodup
  by_cases hch : newDoc ≠ db_get db ("_design/" ++ dd.design)
  · have hcd : changedDoc db rm g = some newDoc := by
      unfold changedDoc
      rw [hdd]
      dsimp only
      rw [hsync]
      dsimp only
      rw [if_pos hch]
    have hmemdocs : newDoc ∈ docs := by
      rw [hdocs]
      exact List.mem_filterMap.2 ⟨g, hg, hcd⟩
    have hfind := find?_unique_id docs newDoc ("_design/" ++ dd.design) hids_nodup
      hmemdocs hnd_id
    rw [hfind] at hlk
    dsimp only at hlk
    have hget2 : db_get (applyCommit db docs nr) ("_design/" ++ dd.design) =
        { newDoc with rev := some (nr ("_design/" ++ dd.design)) } := by
      unfold db_get
      rw [hlk]
      rfl
    rw [hget2, sync_doc_rev, hidem]
    rfl
  · push_neg at hch
    have hcdg : changedDoc db rm g = none := by
      unfold changedDoc
      rw [hdd]
      dsimp only
      rw [hsync]
      dsimp only
      rw [if_neg (fun hcc => hcc hch)]
    have hfnone : docs.find? (fun d2 => d2.docId == ("_design/" ++ dd.design)) = none := by
      rw [List.find?_eq_none]
      intro x hxm
      simp only [beq_iff_eq]
      intro hxe
      rw [hdocs] at hxm
      rcases List.mem_filterMap.1 hxm with ⟨g2, hg2, hcd2⟩
      have hx_id : x.docId = "_design/" ++ g2.1 := hchid g2 hg2 x hcd2
      have hgg : g2 = g := eq_of_nodup_keys (groupList defs) hgb g2 g hg2 hg
        (design_prefix_inj (by rw [← hx_id, hxe, hid_eq]))
      rw [hgg, hcdg] at hcd2
      cases hcd2
    rw [hfnone] at hlk
    dsimp only at hlk
    have hget2 : db_get (applyCommit db docs nr) ("_design/" ++ dd.design) =
        db_get db ("_design/" ++ dd.design) := by
      unfold db_get
      rw [hlk]
    rw [hget2, ← hch]
    exact hidem
/-! ### Remaining support lemmas -/

theorem vsf_ok_of_le_one (cur : Option String) {defs : List ValidateFunctionDefinition}
    (rm : Bool) (ls : Lset) (dl : Option String) (h : defs.length ≤ 1) :
    ∃ rvd, validate_sync_field cur defs rm ls dl = Except.ok rvd := by
  cases defs with
  | nil =>
    simp only [validate_sync_field]
    by_cases hc : (!rm && cur.isSome) = true
    · rw [if_pos hc]
      cases dl with
      | some L => exact ⟨_, rfl⟩
      | none => exact ⟨_, rfl⟩
    · rw [if_neg hc]
      exact ⟨_, rfl⟩
  | cons v t =>
    cases t with
    | nil => exact ⟨_, rfl⟩
    | cons v2 t2 => simp at h

theorem vsf_error_kind {cur : Option String} {defs : List ValidateFunctionDefinition}
    {rm : Bool} {ls : Lset} {dl : Option String} {e : Err}
    (h : validate_sync_field cur defs rm ls dl = Except.error e) :
    e = Err.validatorConflict := by
  cases defs with
  | nil =>
    simp only [validate_sync_field] at h
    by_cases hc : (!rm && cur.isSome) = true
    · rw [if_pos hc] at h
      cases dl with
      | some L => cases h
      | none => cases h
    · rw [if_neg hc] at h
      cases h
  | cons v t =>
    cases t with
    | nil =>
      simp only [validate_sync_field] at h
      cases h
    | cons v2 t2 =>
      simp only [validate_sync_field] at h
      injection h with h2
      exact h2.symm

theorem one_lt_length_of_two_mem :
    ∀ (s : List String) (a b : String), a ∈ s → b ∈ s → a ≠ b → 1 < s.length
  | [], a, b, ha, _, _ => absurd ha (List.not_mem_nil a)
  | [x], a, b, ha, hb, hne => by
    rw [List.mem_singleton] at ha hb
    exact absurd (ha.trans hb.symm) hne
  | x :: y :: t, _, _, _, _, _ => by
    simp only [List.length_cons]
    omega

/-- With at least one record in the group, the accumulated language set cannot
be empty. -/
theorem sync_doc_langs_nonempty {dd : DesignDocRecords} {doc : Doc} {rm : Bool}
    {rvd : Option String × Lset} (hv : syncValidate dd doc rm = Except.ok rvd)
    (hne : 0 < dd.total) : (syncShows dd doc rm rvd).2 ≠ [] := by
  have hchain : ∀ x : String, x ∈ (syncUpdates dd doc rm).2 →
      x ∈ (syncShows dd doc rm rvd).2 := by
    intro x hx
    have h3 : x ∈ rvd.2 := vsf_langs_mono hv hx
    exact sdf_langs_mono _ _ _ doc.shows dd.show_functions rm _ doc.language h3
  have hmem : ∃ x : String, x ∈ (syncShows dd doc rm rvd).2 := by
    rcases dd_total_cases hne with hk | hk | hk | hk
    · obtain ⟨v, hvmem⟩ := List.exists_mem_of_ne_nil _ hk
      have h1 : v.language ∈ (syncViews dd doc rm).2 :=
        sdf_langs_of_def _ _ _ doc.views dd.views rm [] doc.language hvmem
      exact ⟨v.language, hchain _
        (sdf_langs_mono _ _ _ doc.updates dd.update_handlers rm _ doc.language h1)⟩
    · obtain ⟨u, humem⟩ := List.exists_mem_of_ne_nil _ hk
      exact ⟨u.language, hchain _
        (sdf_langs_of_def _ _ _ doc.updates dd.update_handlers rm _ doc.language humem)⟩
    · obtain ⟨f, hfmem⟩ := List.exists_mem_of_ne_nil _ hk
      exact ⟨f.language, sdf_langs_mono _ _ _ doc.shows dd.show_functions rm _ doc.language
        (vsf_langs_of_def hv hfmem)⟩
    · obtain ⟨sf, hsmem⟩ := List.exists_mem_of_ne_nil _ hk
      exact ⟨sf.language,
        sdf_langs_of_def _ _ _ doc.shows dd.show_functions rm _ doc.language hsmem⟩
  obtain ⟨x, hx⟩ := hmem
  intro hemp
  rw [hemp] at hx
  cases hx

/-! ### The dedent margin as a longest common prefix -/

theorem commonPrefix_of_isPrefixOf :
    ∀ {m i : List Char}, m.isPrefixOf i = true → commonPrefix m i = m
  | [], i, _ => by cases i <;> rfl
  | c :: m, c2 :: i, h => by
    simp only [List.isPrefixOf, Bool.and_eq_true, beq_iff_eq] at h
    simp only [commonPrefix, h.1, if_pos]
    rw [commonPrefix_of_isPrefixOf h.2]

theorem commonPrefix_of_isPrefixOf2 :
    ∀ {m i : List Char}, i.isPrefixOf m = true → commonPrefix m i = i
  | m, [], _ => by cases m <;> rfl
  | c2 :: m, c :: i, h => by
    simp only [List.isPrefixOf, Bool.and_eq_true, beq_iff_eq] at h
    simp only [commonPrefix, h.1.symm, if_pos]
    rw [commonPrefix_of_isPrefixOf2 h.2]

/-- One step of the `textwrap` margin loop is exactly a longest-common-prefix
step. -/
theorem marginStep_eq_commonPrefix (m i : List Char) :
    marginStep (some m) i = some (commonPrefix m i) := by
  simp only [marginStep]
  by_cases h1 : m.isPrefixOf i = true
  · rw [if_pos h1, commonPrefix_of_isPrefixOf h1]
  · rw [if_neg h1]
    by_cases h2 : i.isPrefixOf m = true
    · rw [if_pos h2, commonPrefix_of_isPrefixOf2 h2]
    · rw [if_neg h2]

/-- The longest whitespace prefix common to a list of indents, as the spec
words it. -/
def longestCommonIndent : List (List Char) → List Char
  | [] => []
  | i :: is => is.foldl commonPrefix i

theorem margin_foldl_eq_longestCommonIndent :
    ∀ (is : List (List Char)) (m : List Char),
      (is.foldl marginStep (some m)).getD [] = is.foldl commonPrefix m
  | [], m => rfl
  | i :: is, m => by
    simp only [List.foldl_cons, marginStep_eq_commonPrefix]
    exact margin_foldl_eq_longestCommonIndent is (commonPrefix m i)

/-- `textwrap.dedent`, written the way the spec describes it: blank
whitespace-only lines, then strip the longest whitespace prefix common to all
non-empty lines. -/
def dedentSpec (s : String) : String :=
  let lines := (splitNL s.data).map (fun l => if !l.isEmpty && l.all isIndentChar then [] else l)
  let margin := longestCommonIndent
    ((lines.filter (fun l => !l.isEmpty)).map (fun l => l.takeWhile isIndentChar))
  String.mk (joinNL (lines.map
    (fun l => if !margin.isEmpty && margin.isPrefixOf l then l.drop margin.length else l)))

theorem margin_eq :
    ∀ is : List (List Char), (is.foldl marginStep none).getD [] = longestCommonIndent is
  | [] => rfl
  | i :: is => by
    simp only [List.foldl_cons, longestCommonIndent]
    rw [show marginStep none i = some i from rfl]
    exact margin_foldl_eq_longestCommonIndent is i

/-- The incremental margin loop of `textwrap.dedent` computes the longest
common indent, so the two formulations agree. -/
theorem dedent_eq_dedentSpec (s : String) : dedent s = dedentSpec s := by
  unfold dedent dedentL dedentSpec
  simp only [margin_eq, List.map_map]

/-! ## The claims -/

def Smap.canonB {α : Type} : Smap α → Bool
  | [] => true
  | [_] => true
  | a :: b :: t => strLtB a.1 b.1 && Smap.canonB (b :: t)

theorem Smap.canonB_iff {α : Type} : ∀ m : Smap α, Smap.Canon m ↔ Smap.canonB m = true
  | [] => by simp [Smap.canonB]
  | [a] => by simp [Smap.canonB]
  | a :: b :: t => by
    rw [show Smap.canonB (a :: b :: t) = (strLtB a.1 b.1 && Smap.canonB (b :: t)) from rfl]
    rw [Bool.and_eq_true]
    constructor
    · intro h
      obtain ⟨h1, h2⟩ := List.chain'_cons.mp h
      exact ⟨h1, (Smap.canonB_iff (b :: t)).1 h2⟩
    · intro h
      exact List.chain'_cons.mpr ⟨h.1, (Smap.canonB_iff (b :: t)).2 h.2⟩

instance {α : Type} (m : Smap α) : Decidable (Smap.Canon m) :=
  decidable_of_iff (Smap.canonB m = true) (Smap.canonB_iff m).symm

instance (d : Doc) : Decidable (Doc.IsCanon d) :=
  inferInstanceAs (Decidable (Smap.Canon (d.views.getD []) ∧
    Smap.Canon (d.updates.getD []) ∧ Smap.Canon (d.shows.getD [])))

instance (db : Store) : Decidable (StoreWf db) :=
  inferInstanceAs (Decidable (∀ p ∈ db, (p.2).docId = p.1 ∧ Doc.IsCanon p.2))

/-- C4: Idempotence — after a successful reconciliation, running the same
record set with the same `remove_missing` flag against the committed store
marks no document for commit: the second changed-document set is empty.  The
store is assumed well-formed (each stored document filed under its own id,
with key-sorted mapping fields) and record document names carry no unstripped
reserved prefix — invariants every store built by commits and every
constructor-built record set satisfy. -/
theorem C4_idempotent (db : Store) (defs : List Defn) (rm : Bool)
    (nr nr2 : String → String) (docs : List Doc)
    (hwf : StoreWf db)
    (hpfx : ∀ r ∈ defs, stripDesignPrefix (Defn.design r) = Defn.design r)
    (h1 : (reconcile db defs rm nr).result = Except.ok docs) :
    (reconcile (reconcile db defs rm nr).store defs rm nr2).result = Except.ok [] := by
  obtain ⟨hsd, hstore⟩ := reconcile_ok_inv h1
  rw [hstore, reconcile_result]
  exact second_run_unchanged hwf hpfx hsd

def C4defs : List Defn :=
  [Defn.view (ViewDefinition.make "foo" "v1" "mapcode" none "javascript" none)]

theorem C4_idempotent_witness :
    StoreWf ([] : Store) ∧
    (reconcile (reconcile [] C4defs false (fun _ => "r1")).store C4defs false
      (fun _ => "r2")).result = Except.ok [] := by
  refine ⟨by decide, ?_⟩
  exact C4_idempotent [] C4defs false (fun _ => "r1") (fun _ => "r2")
    [{ docId := "_design/foo", rev := none,
       views := some [("v1", { map := "mapcode", reduce := none, options := none })],
       updates := none, shows := none, validate_doc_update := none,
       language := some "javascript" }]
    (by decide) (by decide) (by decide)

/-- The normalization the claim describes: remove every leading newline AND
carriage-return character, then dedent. -/
def specNormalize (s : String) : String :=
  dedent (String.mk (s.data.dropWhile (fun c => c = '\n' || c = '\r')))

/-- C8: counterexample — the constructors strip only leading `'\n'`
characters (`lstrip('\n')`), never `'\r'`, so a source string beginning with
`"\r\n"` is stored verbatim while the claim's normalization would strip both
characters: the claim does not hold of the code. -/
theorem C8_counterexample :
    (ViewDefinition.make "d" "v" "\r\nx" none "javascript" none).map_fun = "\r\nx" ∧
    specNormalize "\r\nx" = "x" ∧
    (ViewDefinition.make "d" "v" "\r\nx" none "javascript" none).map_fun ≠
      specNormalize "\r\nx" := by
  refine ⟨by decide, by decide, by decide⟩

/-- C8 (amended): source normalization at record construction removes every
leading newline character — and only newlines, never carriage returns — and
then removes the longest whitespace prefix common to all non-empty lines
(textwrap-dedent semantics, stated here via the independent
longest-common-indent formulation `dedentSpec`); this is the stored code of
both record kinds constructed in src/. -/
theorem C8_amended (d n s lang : String) :
    (ViewDefinition.make d n s none lang none).map_fun =
      dedentSpec (String.mk (s.data.dropWhile (fun c => c = '\n'))) ∧
    (UpdateHandlerDefinition.make d n s lang).func =
      dedentSpec (String.mk (s.data.dropWhile (fun c => c = '\n'))) := by
  constructor
  · show normalizeSource s = _
    unfold normalizeSource lstripNewlines
    exact dedent_eq_dedentSpec _
  · show normalizeSource s = _
    unfold normalizeSource lstripNewlines
    exact dedent_eq_dedentSpec _

/-- C5: Grouping correctness — every document name carried by some record
owns exactly one group (the reconciliation builds exactly one design document
for it), and that group consists of exactly the records bearing that name, in
input order — so records with a different name never reach another document's
merge.  The reserved prefix is stripped at construction, making
`"_design/foo"` and `"foo"` the same document name. -/
theorem C5_grouping (defs : List Defn) (d : String) (g : String × List Defn)
    (hmem : d ∈ defs.map Defn.design) (hg : g ∈ groupList defs) :
    ((groupList defs).map Prod.fst).count d = 1 ∧
    g.2 = defs.filter (fun r => r.design == g.1) ∧
    (∀ n m lang : String,
      (ViewDefinition.make "_design/foo" n m none lang none).design =
        (ViewDefinition.make "foo" n m none lang none).design) := by
  obtain ⟨hga, hgb, hgc⟩ := groupRuns_spec Defn.design (sortDefs defs) (sortDefs_sorted defs)
  refine ⟨?_, ?_, ?_⟩
  · have hmem2 : d ∈ ((groupRuns Defn.design (sortDefs defs)).map Prod.fst) := by
      refine (hgc d).2 ?_
      exact (List.Perm.mem_iff ((sortDefs_perm defs).map Defn.design)).2 hmem
    exact List.count_eq_one_of_mem hgb hmem2
  · have h1 := (hga g hg).1
    rw [h1]
    exact filter_sortDefs g.1 defs
  · intro n m lang
    show stripDesignPrefix "_design/foo" = stripDesignPrefix "foo"
    decide

def C5defs : List Defn :=
  [Defn.view (ViewDefinition.make "_design/foo" "v1" "mapone" none "javascript" none),
   Defn.view (ViewDefinition.make "foo" "v2" "maptwo" none "javascript" none)]

theorem C5_grouping_witness :
    ((groupList C5defs).map Prod.fst).count "foo" = 1 ∧
    (("foo",
      [Defn.view (ViewDefinition.make "_design/foo" "v1" "mapone" none "javascript" none),
       Defn.view (ViewDefinition.make "foo" "v2" "maptwo" none "javascript" none)]) :
        String × List Defn).2 =
      C5defs.filter (fun r => r.design == "foo") ∧
    (∀ n m lang : String,
      (ViewDefinition.make "_design/foo" n m none lang none).design =
        (ViewDefinition.make "foo" n m none lang none).design) :=
  C5_grouping C5defs "foo" _ (by decide) (by decide)

def C1defs : List Defn :=
  [Defn.view (ViewDefinition.make "d1" "v1" "mapone" none "javascript" none),
   Defn.update_handler (UpdateHandlerDefinition.make "d2" "u1" "updone" "javascript"),
   Defn.validate_function (ValidateFunctionDefinition.make "d3" "valone" "javascript"),
   Defn.show_function (ShowFunctionDefinition.make "d4" "s1" "showone" "javascript"),
   Defn.view (ViewDefinition.make "d5" "v5" "mapfive" none "javascript" none),
   Defn.show_function (ShowFunctionDefinition.make "d5" "s5" "showfive" "javascript")]

/-- C1: a mixed batch over all four recognized record kinds across five
document names reconciles without rejection into five changed documents, each
populated by kind: views under the `views` mapping, update handlers under the
literal wire key `updates`, the validator as the single code string
`validate_doc_update`, and show functions under the `shows` name-to-code
mapping. -/
theorem C1_mixed_kinds :
    (sync_definitions [] C1defs false).result = Except.ok
      [{ docId := "_design/d1", rev := none,
         views := some [("v1", { map := "mapone", reduce := none, options := none })],
         updates := none, shows := none, validate_doc_update := none,
         language := some "javascript" },
       { docId := "_design/d2", rev := none, views := none,
         updates := some [("u1", "updone")], shows := none,
         validate_doc_update := none, language := some "javascript" },
       { docId := "_design/d3", rev := none, views := none, updates := none,
         shows := none, validate_doc_update := some "valone",
         language := some "javascript" },
       { docId := "_design/d4", rev := none, views := none, updates := none,
         shows := some [("s1", "showone")], validate_doc_update := none,
         language := some "javascript" },
       { docId := "_design/d5", rev := none,
         views := some [("v5", { map := "mapfive", reduce := none, options := none })],
         updates := none, shows := some [("s5", "showfive")],
         validate_doc_update := none, language := some "javascript" }] := by
  decide

def C2stored : Doc :=
  { docId := "_design/foo", rev := some "1",
    views := some [("v1", { map := "oldmap", reduce := none, options := none })],
    updates := none, shows := none, validate_doc_update := none,
    language := some "javascript" }

def C2defs : List Defn :=
  [Defn.update_handler (UpdateHandlerDefinition.make "foo" "u1" "ucode" "javascript")]

/-- C2: counterexample — a reconcile call with `remove_missing = true` whose
record set contains only an update handler for the document (zero view
records) still wipes the stored `views` mapping: the stored artifact `v1` is
removed from a kind that received no records, so the claim does not hold of
the code. -/
theorem C2_counterexample :
    C2stored.views =
      some [("v1", { map := "oldmap", reduce := none, options := none })] ∧
    (sync_definitions [("_design/foo", C2stored)] C2defs true).result =
      Except.ok [{ C2stored with views := some [], updates := some [("u1", "ucode")] }] := by
  refine ⟨by decide, by decide⟩

/-- C2 (amended): with `remove_missing = true`, removal is NOT limited to
kinds that received records — a kind present in the stored document but given
zero records in the call has its whole inner mapping emptied; a kind with
zero records is left untouched only when `remove_missing = false`.  (Stated
for the views kind; the merge is the same generic `_sync_dict_field` for
every mapping kind.) -/
theorem C2_amended (dd : DesignDocRecords) (doc : Doc) (rm : Bool) (doc2 : Doc)
    (hdc : Doc.IsCanon doc) (hzero : dd.views = [])
    (h : _sync_doc dd doc rm = Except.ok doc2) :
    (rm = true → ∀ m, doc.views = some m → m ≠ [] → doc2.views = some []) ∧
    (rm = false → doc2.views = doc.views) := by
  obtain ⟨rvd, l, hv, hls, rfl⟩ := sync_doc_ok_inv h
  constructor
  · rintro rfl m hm hmne
    show (syncViews dd doc true).1 = some []
    unfold syncViews
    refine option_smap_ext ?_ ?_ ?_ ?_
    · exact sdf_fst_canon _ _ _ doc.views dd.views true [] doc.language hdc.1
    · exact List.chain'_nil
    · constructor
      · intro hnone
        rw [sdf_fst_none_iff _ _ _ doc.views dd.views true [] doc.language] at hnone
        obtain ⟨hfld, -⟩ := hnone
        rw [hm] at hfld
        cases hfld
      · intro hnone
        cases hnone
    · intro n
      rw [sdf_fst_lookup _ _ _ doc.views dd.views true [] doc.language hdc.1 n]
      rw [hzero]
      show (if true = true then none else Smap.lookup n (doc.views.getD [])) =
        Smap.lookup n ((some ([] : Smap ViewSpec)).getD [])
      rw [if_pos rfl]
      rfl
  · rintro rfl
    show (syncViews dd doc false).1 = doc.views
    unfold syncViews
    refine option_smap_ext ?_ ?_ ?_ ?_
    · exact sdf_fst_canon _ _ _ doc.views dd.views false [] doc.language hdc.1
    · exact hdc.1
    · rw [sdf_fst_none_iff _ _ _ doc.views dd.views false [] doc.language, hzero]
      constructor
      · intro hh
        exact hh.1
      · intro hh
        exact ⟨hh, rfl⟩
    · intro n
      rw [sdf_fst_lookup _ _ _ doc.views dd.views false [] doc.language hdc.1 n]
      rw [hzero]
      rfl

def C2dd : DesignDocRecords :=
  { design := "foo", views := [],
    update_handlers := [UpdateHandlerDefinition.make "foo" "u1" "ucode" "javascript"],
    validate_functions := [], show_functions := [] }

theorem C2_amended_witness :
    Doc.IsCanon C2stored ∧
    ((true = true →
        ∀ m, C2stored.views = some m → m ≠ [] →
          ({ C2stored with views := some [], updates := some [("u1", "ucode")] } : Doc).views =
            some []) ∧
     (true = false →
        ({ C2stored with views := some [], updates := some [("u1", "ucode")] } : Doc).views =
          C2stored.views)) := by
  refine ⟨by decide, ?_⟩
  exact C2_amended C2dd C2stored true
    { C2stored with views := some [], updates := some [("u1", "ucode")] }
    (by decide) (by decide) (by decide)

/-- C6: removal policy for a kind that received at least one record — a
stored artifact of that kind whose name is not among the call's records of
the kind is deleted from the field when `remove_missing = true` and retained
unchanged when `remove_missing = false`.  Stated over the generic
`_sync_dict_field` merge that every mapping kind instantiates. -/
theorem C6_removal_policy {δ α : Type} (gn : δ → String) (gd : δ → α) (gl : δ → String)
    (fld : Option (Smap α)) (defs : List δ) (ls : Lset) (dl : Option String)
    (n : String) (v : α)
    (_hne : defs ≠ [])
    (hc : Smap.Canon (fld.getD []))
    (hstored : Smap.lookup n (fld.getD []) = some v)
    (habsent : ∀ d ∈ defs, gn d ≠ n) :
    Smap.lookup n ((_sync_dict_field gn gd gl fld defs true ls dl).1.getD []) = none ∧
    Smap.lookup n ((_sync_dict_field gn gd gl fld defs false ls dl).1.getD []) = some v := by
  have hlast : lastMatch gn n defs = none := (lastMatch_eq_none_iff gn n defs).2 habsent
  constructor
  · rw [sdf_fst_lookup gn gd gl fld defs true ls dl hc n, hlast]
    dsimp only
    rw [if_pos rfl]
  · rw [sdf_fst_lookup gn gd gl fld defs false ls dl hc n, hlast]
    dsimp only
    rw [if_neg (by decide)]
    exact hstored

def C6old : ViewSpec := { map := "oldmap", reduce := none, options := none }

def C6new : ViewDefinition :=
  ViewDefinition.make "foo" "vnew" "newmap" none "javascript" none

theorem C6_removal_policy_witness :
    Smap.lookup "old" ((some [("old", C6old)] : Option (Smap ViewSpec)).getD []) =
      some C6old ∧
    (Smap.lookup "old" ((_sync_dict_field (fun v => v.name)
        ViewDefinition.get_definition (fun v => v.language)
        (some [("old", C6old)]) [C6new] true [] (some "javascript")).1.getD []) = none ∧
     Smap.lookup "old" ((_sync_dict_field (fun v => v.name)
        ViewDefinition.get_definition (fun v => v.language)
        (some [("old", C6old)]) [C6new] false [] (some "javascript")).1.getD []) =
       some C6old) := by
  refine ⟨by decide, ?_⟩
  exact C6_removal_policy (fun v => v.name) ViewDefinition.get_definition
    (fun v => v.language) (some [("old", C6old)]) [C6new] [] (some "javascript")
    "old" C6old (by decide) (by decide) (by decide) (by decide)

/-- C3: a language conflict in some document group aborts the entire call
with the language-conflict error carrying the conflicting language list; no
document at all is written to the store (neither groups merged before the
failing one, nor the failing one, nor later ones), and processing stops at
the failing group — exactly the earlier groups and the failing group were
fetched. -/
theorem C3_language_conflict_aborts (db : Store) (defs : List Defn) (rm : Bool)
    (nr : String → String) (pre post : List (String × List Defn)) (d : String)
    (gdefs : List Defn) (dd : DesignDocRecords) (L : List String)
    (hg : groupList defs = pre ++ (d, gdefs) :: post)
    (hok : ∀ g ∈ pre, groupOk db rm g)
    (hdd : from_definitions d gdefs = Except.ok dd)
    (hconf : _sync_doc dd (db_get db ("_design/" ++ dd.design)) rm =
      Except.error (Err.languageConflict L)) :
    (reconcile db defs rm nr).result = Except.error (Err.languageConflict L) ∧
    (reconcile db defs rm nr).store = db ∧
    (reconcile db defs rm nr).fetched =
      pre.map groupDocId ++ ["_design/" ++ dd.design] := by
  obtain ⟨docs2, hpre⟩ := sync_many_go_prefix db rm pre ((d, gdefs) :: post) [] [] hok
  have hsd : sync_definitions db defs rm =
      { fetched := ([] ++ pre.map groupDocId) ++ ["_design/" ++ dd.design],
        result := Except.error (Err.languageConflict L) } := by
    unfold sync_definitions
    rw [hg, hpre,
      sync_many_go_cons_error2 db rm d gdefs post ([] ++ pre.map groupDocId) docs2 hdd hconf]
  have hres : (sync_definitions db defs rm).result =
      Except.error (Err.languageConflict L) := by
    rw [hsd]
  obtain ⟨h1, h2, h3⟩ := reconcile_error_inv hres
  refine ⟨h2, h1, ?_⟩
  rw [h3, hsd]
  simp

def C3vA : ViewDefinition := ViewDefinition.make "a" "va" "mapa" none "javascript" none

def C3vX : ViewDefinition := ViewDefinition.make "b" "x" "mapx" none "javascript" none

def C3vY : ViewDefinition := ViewDefinition.make "b" "y" "mapy" none "python" none

def C3defs : List Defn := [Defn.view C3vA, Defn.view C3vX, Defn.view C3vY]

def C3ddA : DesignDocRecords :=
  { design := "a", views := [C3vA], update_handlers := [], validate_functions := []
    show_functions := [] }

def C3ddB : DesignDocRecords :=
  { design := "b", views := [C3vX, C3vY], update_handlers := [], validate_functions := []
    show_functions := [] }

def C3docA : Doc :=
  { docId := "_design/a", rev := none,
    views := some [("va", { map := "mapa", reduce := none, options := none })],
    updates := none, shows := none, validate_doc_update := none,
    language := some "javascript" }

theorem C3_language_conflict_aborts_witness :
    (from_definitions "b" [Defn.view C3vX, Defn.view C3vY] = Except.ok C3ddB) ∧
    ((reconcile [] C3defs false (fun _ => "r")).result =
        Except.error (Err.languageConflict ["javascript", "python"]) ∧
     (reconcile [] C3defs false (fun _ => "r")).store = [] ∧
     (reconcile [] C3defs false (fun _ => "r")).fetched =
        [(("a", [Defn.view C3vA]) : String × List Defn)].map groupDocId ++
          ["_design/" ++ C3ddB.design]) := by
  refine ⟨by decide, ?_⟩
  exact C3_language_conflict_aborts [] C3defs false (fun _ => "r")
    [("a", [Defn.view C3vA])] [] "b" [Defn.view C3vX, Defn.view C3vY] C3ddB
    ["javascript", "python"] (by decide)
    (fun g hg => by
      rw [List.mem_singleton] at hg
      subst hg
      exact ⟨C3ddA, C3docA, by decide, by decide⟩)
    (by decide) (by decide)

def C7preV : ViewDefinition := ViewDefinition.make "a" "v" "mapv" none "javascript" none

def C7defs : List Defn := [Defn.view C7preV, Defn.other "zzz"]

/-- C7: counterexample — the sync loop is driven by a lazily evaluated group
sequence, so in a batch where a recognized group sorts before the
unrecognized record, the earlier group's document IS fetched before the
unsupported-kind error fires; the claim's "before any document is fetched"
does not hold of the code. -/
theorem C7_counterexample :
    (sync_definitions [] C7defs false).result = Except.error Err.unsupportedKind ∧
    (sync_definitions [] C7defs false).fetched = ["_design/a"] := by
  refine ⟨by decide, by decide⟩

/-- C7 (amended): a record of an unrecognized kind still fails the whole call
with the unsupported-kind error and nothing is ever committed (the store is
untouched), but the failure fires only when the lazily evaluated group
sequence reaches the offending group: the documents of groups processed
earlier have already been fetched (read, never written) by then. -/
theorem C7_amended (db : Store) (defs : List Defn) (rm : Bool) (nr : String → String)
    (pre post : List (String × List Defn)) (d : String) (gdefs : List Defn)
    (hg : groupList defs = pre ++ (d, gdefs) :: post)
    (hok : ∀ g ∈ pre, groupOk db rm g)
    (hbad : ∃ s, Defn.other s ∈ gdefs) :
    (reconcile db defs rm nr).result = Except.error Err.unsupportedKind ∧
    (reconcile db defs rm nr).store = db ∧
    (reconcile db defs rm nr).fetched = pre.map groupDocId := by
  obtain ⟨docs2, hpre⟩ := sync_many_go_prefix db rm pre ((d, gdefs) :: post) [] [] hok
  have hsd : sync_definitions db defs rm =
      { fetched := [] ++ pre.map groupDocId,
        result := Except.error Err.unsupportedKind } := by
    unfold sync_definitions
    rw [hg, hpre, sync_many_go_cons_error1 db rm d gdefs post ([] ++ pre.map groupDocId)
      docs2 (from_definitions_error_of_other hbad)]
  have hres : (sync_definitions db defs rm).result = Except.error Err.unsupportedKind := by
    rw [hsd]
  obtain ⟨h1, h2, h3⟩ := reconcile_error_inv hres
  refine ⟨h2, h1, ?_⟩
  rw [h3, hsd]
  simp

def C7ddA : DesignDocRecords :=
  { design := "a", views := [C7preV], update_handlers := [], validate_functions := []
    show_functions := [] }

def C7docA : Doc :=
  { docId := "_design/a", rev := none,
    views := some [("v", { map := "mapv", reduce := none, options := none })],
    updates := none, shows := none, validate_doc_update := none,
    language := some "javascript" }

theorem C7_amended_witness :
    (reconcile [] C7defs false (fun _ => "r")).result = Except.error Err.unsupportedKind ∧
    (reconcile [] C7defs false (fun _ => "r")).store = [] ∧
    (reconcile [] C7defs false (fun _ => "r")).fetched =
      [(("a", [Defn.view C7preV]) : String × List Defn)].map groupDocId := by
  exact C7_amended [] C7defs false (fun _ => "r") [("a", [Defn.view C7preV])] []
    "zzz" [Defn.other "zzz"] (by decide)
    (fun g hg => by
      rw [List.mem_singleton] at hg
      subst hg
      exact ⟨C7ddA, C7docA, by decide, by decide⟩)
    ⟨"zzz", by decide⟩

/-- C9: with at least one record in the document group, the accumulated
language set cannot be empty, so the single-element access that assigns the
document's top-level language never hits an empty collection (the
empty-indexing error is unreachable), and a successful merge sets the
`language` field to the unique language every record of the group declares. -/
theorem C9_language_safety (dd : DesignDocRecords) (doc : Doc) (rm : Bool)
    (hne : 0 < dd.total) :
    _sync_doc dd doc rm ≠ Except.error Err.indexError ∧
    ∀ doc2, _sync_doc dd doc rm = Except.ok doc2 →
      ∃ l, doc2.language = some l ∧
        (∀ v ∈ dd.views, v.language = l) ∧
        (∀ u ∈ dd.update_handlers, u.language = l) ∧
        (∀ f ∈ dd.validate_functions, f.language = l) ∧
        (∀ sf ∈ dd.show_functions, sf.language = l) := by
  constructor
  · intro hcontra
    unfold _sync_doc at hcontra
    cases hv : syncValidate dd doc rm with
    | error e =>
      rw [hv] at hcontra
      dsimp only at hcontra
      injection hcontra with he
      have hk := vsf_error_kind hv
      rw [hk] at he
      cases he
    | ok rvd =>
      rw [hv] at hcontra
      dsimp only at hcontra
      by_cases hlen : 1 < (syncShows dd doc rm rvd).2.length
      · rw [if_pos hlen] at hcontra
        injection hcontra with he
        cases he
      · rw [if_neg hlen] at hcontra
        cases hsh : (syncShows dd doc rm rvd).2 with
        | nil => exact sync_doc_langs_nonempty hv hne hsh
        | cons a t =>
          rw [hsh] at hcontra
          dsimp only at hcontra
          cases hcontra
  · intro doc2 h
    exact sync_doc_ok_langs h

def C9dd : DesignDocRecords :=
  { design := "foo",
    views := [ViewDefinition.make "foo" "v1" "mapcode" none "javascript" none],
    update_handlers := [], validate_functions := [], show_functions := [] }

theorem C9_language_safety_witness :
    0 < C9dd.total ∧
    (_sync_doc C9dd (emptyDesignDoc "_design/foo") false ≠ Except.error Err.indexError ∧
     ∀ doc2, _sync_doc C9dd (emptyDesignDoc "_design/foo") false = Except.ok doc2 →
       ∃ l, doc2.language = some l ∧
         (∀ v ∈ C9dd.views, v.language = l) ∧
         (∀ u ∈ C9dd.update_handlers, u.language = l) ∧
         (∀ f ∈ C9dd.validate_functions, f.language = l) ∧
         (∀ sf ∈ C9dd.show_functions, sf.language = l)) :=
  ⟨by decide, C9_language_safety C9dd (emptyDesignDoc "_design/foo") false (by decide)⟩

/-- C10: with `remove_missing = false`, a stored artifact not re-declared by
the call folds the document's stored top-level language into the accumulated
language set even though every new record declares its own language; hence a
document storing language `L1` with at least one stale artifact, merged
against records that all declare a different language `L2`, fails with the
language-conflict error, whose language list contains both `L1` and `L2`. -/
theorem C10_stale_artifact_conflict (dd : DesignDocRecords) (doc : Doc)
    (L1 L2 n : String)
    (hdc : Doc.IsCanon doc) (hij : L1 ≠ L2)
    (hdl : doc.language = some L1)
    (hv2 : ∀ v ∈ dd.views, v.language = L2)
    (hu2 : ∀ u ∈ dd.update_handlers, u.language = L2)
    (hf2 : ∀ f ∈ dd.validate_functions, f.language = L2)
    (hs2 : ∀ sf ∈ dd.show_functions, sf.language = L2)
    (hvu : dd.validate_functions.length ≤ 1)
    (hne : 0 < dd.total)
    (hk : n ∈ Smap.keys (doc.views.getD []))
    (hstale : ∀ vd ∈ dd.views, vd.name ≠ n) :
    ∃ ls, _sync_doc dd doc false = Except.error (Err.languageConflict ls) ∧
      L1 ∈ ls ∧ L2 ∈ ls := by
  obtain ⟨rvd, hv0⟩ := vsf_ok_of_le_one doc.validate_doc_update false
    (syncUpdates dd doc false).2 doc.language hvu
  have hv : syncValidate dd doc false = Except.ok rvd := hv0
  have hL1v : L1 ∈ (syncViews dd doc false).2 := by
    show L1 ∈ (_sync_dict_field (fun v => v.name) ViewDefinition.get_definition
      (fun v => v.language) doc.views dd.views false [] doc.language).2
    rw [hdl]
    exact sdf_langs_fold (fun v => v.name) ViewDefinition.get_definition
      (fun v => v.language) doc.views dd.views [] hdc.1 hk hstale
  have hL1 : L1 ∈ (syncShows dd doc false rvd).2 :=
    sdf_langs_mono _ _ _ doc.shows dd.show_functions false _ doc.language
      (vsf_langs_mono hv
        (sdf_langs_mono _ _ _ doc.updates dd.update_handlers false _ doc.language hL1v))
  have hL2 : L2 ∈ (syncShows dd doc false rvd).2 := by
    rcases dd_total_cases hne with hkk | hkk | hkk | hkk
    · obtain ⟨v, hvm⟩ := List.exists_mem_of_ne_nil _ hkk
      have h1 : v.language ∈ (syncViews dd doc false).2 :=
        sdf_langs_of_def _ _ _ doc.views dd.views false [] doc.language hvm
      rw [hv2 v hvm] at h1
      exact sdf_langs_mono _ _ _ doc.shows dd.show_functions false _ doc.language
        (vsf_langs_mono hv
          (sdf_langs_mono _ _ _ doc.updates dd.update_handlers false _ doc.language h1))
    · obtain ⟨u, hum⟩ := List.exists_mem_of_ne_nil _ hkk
      have h1 : u.language ∈ (syncUpdates dd doc false).2 :=
        sdf_langs_of_def _ _ _ doc.updates dd.update_handlers false _ doc.language hum
      rw [hu2 u hum] at h1
      exact sdf_langs_mono _ _ _ doc.shows dd.show_functions false _ doc.language
        (vsf_langs_mono hv h1)
    · obtain ⟨f, hfm⟩ := List.exists_mem_of_ne_nil _ hkk
      have h1 : f.language ∈ rvd.2 := vsf_langs_of_def hv hfm
      rw [hf2 f hfm] at h1
      exact sdf_langs_mono _ _ _ doc.shows dd.show_functions false _ doc.language h1
    · obtain ⟨sf, hsm⟩ := List.exists_mem_of_ne_nil _ hkk
      have h1 : sf.language ∈ (syncShows dd doc false rvd).2 :=
        sdf_langs_of_def _ _ _ doc.shows dd.show_functions false _ doc.language hsm
      rw [hs2 sf hsm] at h1
      exact h1
  have hlen : 1 < (syncShows dd doc false rvd).2.length :=
    one_lt_length_of_two_mem _ L1 L2 hL1 hL2 hij
  refine ⟨(syncShows dd doc false rvd).2, ?_, hL1, hL2⟩
  unfold _sync_doc
  rw [hv]
  dsimp only
  rw [if_pos hlen]

def C10doc : Doc :=
  { docId := "_design/foo", rev := some "1",
    views := some [("old", { map := "oldmap", reduce := none, options := none })],
    updates := none, shows := none, validate_doc_update := none,
    language := some "python" }

def C10dd : DesignDocRecords :=
  { design := "foo",
    views := [ViewDefinition.make "foo" "vnew" "newmap" none "javascript" none],
    update_handlers := [], validate_functions := [], show_functions := [] }

theorem C10_stale_artifact_conflict_witness :
    C10doc.language = some "python" ∧
    ("old" ∈ Smap.keys (C10doc.views.getD [])) ∧
    (∃ ls, _sync_doc C10dd C10doc false = Except.error (Err.languageConflict ls) ∧
      "python" ∈ ls ∧ "javascript" ∈ ls) := by
  refine ⟨by decide, by decide, ?_⟩
  exact C10_stale_artifact_conflict C10dd C10doc "python" "javascript" "old"
    (by decide) (by decide) (by decide) (by decide) (by decide) (by decide)
    (by decide) (by decide) (by decide) (by decide) (by decide)

end CouchDesign
